import Mathlib

/-!
Verification of the diff-to-hunk parser and per-hunk analysis pipeline of the
ai-pr-helper repository.

The embedding represents JavaScript strings as lists of characters
(`Str := List Char`), so that splitting/joining on newline characters and the
textual scans of the analyzers can be reasoned about directly.  Numbers that
the source treats as JavaScript integers are `Nat`/`Int`; the score arithmetic
of the complexity analyzer (which the source performs on JS numbers) is
modelled with exact rationals `ℚ`.
-/

namespace AiPrHelper

/-- JavaScript strings are modelled as lists of characters. -/
abbrev Str := List Char

/-- String literal to character-list, shorthand. -/
def str (s : String) : Str := s.data

/-- `a.startsWith b` of JS, on character lists. -/
def startsWith (pre s : Str) : Bool := List.isPrefixOf pre s

/-- Split a string on the newline character, as JS `s.split('\n')`:
the result is never empty, and an empty input yields `[[]]`. -/
def splitOnNl : Str → List Str
  | [] => [[]]
  | c :: rest =>
    if c = '\n' then [] :: splitOnNl rest
    else
      match splitOnNl rest with
      | g :: gs => (c :: g) :: gs
      | [] => [[c]]

/-- Join lines with a newline separator, as JS `lines.join('\n')`. -/
def joinNl : List Str → Str
  | [] => []
  | [l] => l
  | l :: ls => l ++ '\n' :: joinNl ls

/-- `splitOnNl` never returns the empty list of lines. -/
theorem splitOnNl_ne_nil (s : Str) : splitOnNl s ≠ [] := by
  induction s with
  | nil => simp [splitOnNl]
  | cons c rest ih =>
    simp only [splitOnNl]
    split
    · simp
    · cases h : splitOnNl rest with
      | nil => simp
      | cons g gs => simp

/-- Every line produced by `splitOnNl` is free of newline characters. -/
theorem splitOnNl_no_nl (s : Str) : ∀ l ∈ splitOnNl s, '\n' ∉ l := by
  induction s with
  | nil => intro l hl; simp [splitOnNl] at hl; simp [hl]
  | cons c rest ih =>
    intro l hl
    simp only [splitOnNl] at hl
    by_cases hc : c = '\n'
    · simp [hc] at hl
      rcases hl with h | h
      · simp [h]
      · exact ih l h
    · simp [hc] at hl
      rcases hg : splitOnNl rest with _ | ⟨g, gs⟩
      · exact absurd hg (splitOnNl_ne_nil rest)
      · rw [hg] at hl
        simp at hl
        rcases hl with h | h
        · subst h
          intro hmem
          rcases List.mem_cons.mp hmem with h | h
          · exact hc h.symm
          · exact ih g (by rw [hg]; exact List.mem_cons_self g gs) h
        · exact ih l (by rw [hg]; exact List.mem_cons_of_mem g h)

/-- Splitting a newline-free string gives back the single line. -/
theorem splitOnNl_of_no_nl (l : Str) (h : '\n' ∉ l) : splitOnNl l = [l] := by
  induction l with
  | nil => simp [splitOnNl]
  | cons c rest ih =>
    simp only [splitOnNl]
    have hc : c ≠ '\n' := fun hc => h (hc ▸ List.mem_cons_self c rest)
    rw [if_neg hc, ih (fun hm => h (List.mem_cons_of_mem c hm))]

/-- Splitting a string that begins with a newline-free line, a newline, and a
remainder first yields that line. -/
theorem splitOnNl_append (l r : Str) (h : '\n' ∉ l) :
    splitOnNl (l ++ '\n' :: r) = l :: splitOnNl r := by
  induction l with
  | nil => simp [splitOnNl]
  | cons c rest ih =>
    have hc : c ≠ '\n' := fun hc => h (hc ▸ List.mem_cons_self c rest)
    have := ih (fun hm => h (List.mem_cons_of_mem c hm))
    simp only [List.cons_append, splitOnNl, if_neg hc]
    rw [show rest.append ('\n' :: r) = rest ++ '\n' :: r from rfl, this]

/-- Splitting is a left inverse of joining for nonempty lists of
newline-free lines. -/
theorem splitOnNl_joinNl (ls : List Str) (hne : ls ≠ [])
    (h : ∀ l ∈ ls, '\n' ∉ l) : splitOnNl (joinNl ls) = ls := by
  induction ls with
  | nil => exact absurd rfl hne
  | cons l rest ih =>
    cases rest with
    | nil => simpa [joinNl] using splitOnNl_of_no_nl l (h l (by simp))
    | cons l2 rest2 =>
      have hl : '\n' ∉ l := h l (by simp)
      show splitOnNl (l ++ '\n' :: joinNl (l2 :: rest2)) = _
      rw [splitOnNl_append l _ hl,
        ih (by simp) (fun x hx => h x (List.mem_cons_of_mem l hx))]

/-! ## Diff parser data model (src/parsers/diff.ts) -/

/-- Raw hunk state while parsing (`RawHunk` in diff.ts). -/
structure RawHunk where
  oldStart : Nat
  oldLines : Nat
  newStart : Nat
  newLines : Nat
  lines : List Str
  deriving Repr, DecidableEq

/-- A materialized hunk (`DiffHunk` in types.ts, fields as produced by
`convertHunk`).  Line numbers are integers, as JS numbers. -/
structure DiffHunk where
  filename : Str
  startLine : Int
  endLine : Int
  content : Str
  additions : List Str
  deletions : List Str
  context : Str
  deriving Repr, DecidableEq

/-- A changed file (`DiffFile` in types.ts). -/
structure DiffFile where
  filename : Str
  hunks : List DiffHunk
  additions : Nat
  deletions : Nat
  deriving Repr, DecidableEq

/-- The parser result (`ParsedDiff` in types.ts). -/
structure ParsedDiff where
  files : List DiffFile
  deriving Repr, DecidableEq

/-! ### Hunk header recognition

The source matches `/@@ -(\d+)(?:,(\d+))? \+(\d+)(?:,(\d+))? @@/` against the
line (an unanchored leftmost search).  The pattern is deterministic: each
`\d+` is a maximal digit run, and an optional `,count` group is taken exactly
when a comma followed by a digit run is present. -/

/-- Captured fields of a hunk header match; `oldCount`/`newCount` are `none`
when the optional `,count` group did not participate. -/
structure HunkHeader where
  oldStart : Nat
  oldCount : Option Nat
  newStart : Nat
  newCount : Option Nat
  deriving Repr, DecidableEq

/-- Strip an expected literal from the front, or fail. -/
def dropPre : Str → Str → Option Str
  | [], s => some s
  | _ :: _, [] => none
  | p :: ps, c :: cs => if p = c then dropPre ps cs else none

/-- Greedy `\d+`: parse one or more leading digits into a number
(decimal, as `parseInt(_, 10)` does), returning the rest. -/
def parseDigits (s : Str) : Option (Nat × Str) :=
  let digits := s.takeWhile Char.isDigit
  if digits = [] then none
  else some (digits.foldl (fun n c => 10 * n + (c.toNat - '0'.toNat)) 0,
    s.dropWhile Char.isDigit)

/-- Optional `,\d+` group: taken exactly when a comma with following digits
is present; a comma without digits makes the whole match fail (the regex
then requires a space where the comma stands). -/
def parseOptCount (s : Str) : Option (Option Nat × Str) :=
  match s with
  | ',' :: rest =>
    match parseDigits rest with
    | some (n, r) => some (some n, r)
    | none => none
  | _ => some (none, s)

/-- Try to match the hunk-header pattern starting at the head of `s`. -/
def parseHeaderHere (s : Str) : Option HunkHeader :=
  match dropPre (str "@@ -") s with
  | none => none
  | some s1 =>
    match parseDigits s1 with
    | none => none
    | some (os, s2) =>
      match parseOptCount s2 with
      | none => none
      | some (oc, s3) =>
        match dropPre (str " +") s3 with
        | none => none
        | some s4 =>
          match parseDigits s4 with
          | none => none
          | some (ns, s5) =>
            match parseOptCount s5 with
            | none => none
            | some (nc, s6) =>
              match dropPre (str " @@") s6 with
              | none => none
              | some _ => some ⟨os, oc, ns, nc⟩

/-- Leftmost match of the hunk-header pattern anywhere in the line. -/
def findHunkHeader : Str → Option HunkHeader
  | [] => none
  | c :: rest =>
    match parseHeaderHere (c :: rest) with
    | some h => some h
    | none => findHunkHeader rest

/-! ### Filename extraction

`line.match(/diff --git a\/(.+) b\/(.+)/)`: the greedy first group makes
the split happen at the last ` b/` occurrence that leaves a nonempty
second group; the filename used is the second capture. -/

/-- Find the part after the last ` b/` in `r` that is preceded by a nonempty
first capture and followed by a nonempty second capture.  `i + 1` is the
candidate length of the first capture, scanned from the longest down. -/
def lastBSplit (r : Str) : Nat → Option Str
  | 0 => none
  | i + 1 =>
    if startsWith (str " b/") (r.drop (i + 1)) ∧ r.drop (i + 4) ≠ [] then
      some (r.drop (i + 4))
    else lastBSplit r i

/-- Leftmost position where `diff --git a/` occurs with a valid
`(.+) b/(.+)` continuation; returns the second capture. -/
def findGitName : Str → Option Str
  | [] => none
  | c :: rest =>
    match dropPre (str "diff --git a/") (c :: rest) with
    | some r =>
      match lastBSplit r r.length with
      | some b => some b
      | none => findGitName rest
    | none => findGitName rest

/-- Filename extraction of the `diff --git` branch of `parseDiff`
(`match ? match[2] : 'unknown'`). -/
def extractFilename (line : Str) : Str :=
  match findGitName line with
  | some b => b
  | none => str "unknown"

/-! ### Hunk materialization (`convertHunk`) -/

/-- A line is an addition: starts with `+` but not `+++`. -/
def isAddLine (l : Str) : Bool := startsWith (str "+") l && !startsWith (str "+++") l

/-- A line is a deletion: starts with `-` but not `---`. -/
def isDelLine (l : Str) : Bool := startsWith (str "-") l && !startsWith (str "---") l

/-- One step of the `convertHunk` loop: accumulates
(additions, deletions, contentLines). -/
def convertStep : List Str × List Str × List Str → Str → List Str × List Str × List Str
  | (adds, dels, content), line =>
    if isAddLine line then (adds ++ [line.drop 1], dels, content ++ [line])
    else if isDelLine line then (adds, dels ++ [line.drop 1], content ++ [line])
    else if startsWith (str " ") line ∨ line = [] then (adds, dels, content ++ [line])
    else (adds, dels, content)

/-- `convertHunk` of diff.ts: materialize a raw hunk. -/
def convertHunk (raw : RawHunk) (filename : Str) : DiffHunk :=
  let (adds, dels, contentLines) := raw.lines.foldl convertStep ([], [], [])
  { filename
    startLine := (raw.newStart : Int)
    endLine := (raw.newStart : Int) + (raw.newLines : Int) - 1
    content := joinNl contentLines
    additions := adds
    deletions := dels
    context := [] }

/-! ### The line-scanning loop of `parseDiff` -/

/-- Mutable state of the `parseDiff` loop. -/
structure ParseState where
  files : List DiffFile
  currentFile : Option DiffFile
  currentHunk : Option RawHunk
  deriving Repr, DecidableEq

/-- Close any in-progress hunk into the current file
(the `if (currentFile && currentHunk)` push). -/
def closeHunk (st : ParseState) : Option DiffFile :=
  match st.currentFile, st.currentHunk with
  | some f, some rh => some { f with hunks := f.hunks ++ [convertHunk rh f.filename] }
  | cf, _ => cf

/-- Build the raw hunk recorded at a hunk header
(missing `,count` groups default to 1). -/
def rawOfHeader (h : HunkHeader) : RawHunk :=
  { oldStart := h.oldStart
    oldLines := h.oldCount.getD 1
    newStart := h.newStart
    newLines := h.newCount.getD 1
    lines := [] }

/-- One iteration of the `parseDiff` while-loop on a single line,
mirroring the branch order of the source. -/
def stepLine (st : ParseState) (line : Str) : ParseState :=
  if startsWith (str "diff --git") line then
    let cf := closeHunk st
    { files := match cf with
        | some f => st.files ++ [f]
        | none => st.files
      currentFile := some ⟨extractFilename line, [], 0, 0⟩
      currentHunk := none }
  else if startsWith (str "index ") line ∨ startsWith (str "---") line ∨
      startsWith (str "+++") line then st
  else if startsWith (str "@@") line then
    let cf := closeHunk st
    match findHunkHeader line with
    | some h => { st with currentFile := cf, currentHunk := some (rawOfHeader h) }
    | none => { st with currentFile := cf }
  else
    match st.currentHunk with
    | some rh =>
      if startsWith (str "+") line ∨ startsWith (str "-") line ∨
          startsWith (str " ") line ∨ line = [] then
        { st with
          currentHunk := some { rh with lines := rh.lines ++ [line] }
          currentFile := match st.currentFile with
            | some f =>
              if isAddLine line then some { f with additions := f.additions + 1 }
              else if isDelLine line then some { f with deletions := f.deletions + 1 }
              else some f
            | none => none }
      else st
    | none => st

/-- Flush the still-open hunk and file at end of input. -/
def finalizeState (st : ParseState) : ParsedDiff :=
  let cf := closeHunk st
  { files := match cf with
      | some f => st.files ++ [f]
      | none => st.files }

/-- `parseDiff` on an already-split list of lines. -/
def parseDiffLines (lines : List Str) : ParsedDiff :=
  finalizeState (lines.foldl stepLine ⟨[], none, none⟩)

/-- `parseDiff` of diff.ts: split the text on newlines and scan. -/
def parseDiff (diffText : Str) : ParsedDiff :=
  parseDiffLines (splitOnNl diffText)

/-- `isTypeScriptFile` of diff.ts: `/\.(tsx?|jsx?)$/.test(filename)`. -/
def isTypeScriptFile (filename : Str) : Bool :=
  List.isSuffixOf (str ".ts") filename ∨ List.isSuffixOf (str ".tsx") filename ∨
  List.isSuffixOf (str ".js") filename ∨ List.isSuffixOf (str ".jsx") filename

/-! ### Structure of `convertHunk` -/

/-- Lines kept in `content` by the `convertHunk` loop. -/
def keepLine (l : Str) : Bool :=
  isAddLine l || isDelLine l || startsWith (str " ") l || decide (l = [])

/-- A line cannot be both an addition and a deletion. -/
theorem add_del_disjoint (l : Str) (ha : isAddLine l = true) :
    isDelLine l = false := by
  rcases l with _ | ⟨c, cs⟩
  · simp [isAddLine, startsWith, str, List.isPrefixOf] at ha
  · simp only [isAddLine, startsWith, str, Bool.and_eq_true] at ha
    have h1 : c = '+' := by
      have := ha.1
      simp [List.isPrefixOf] at this
      exact this.symm
    simp [isDelLine, startsWith, str, List.isPrefixOf, h1]

/-- The `convertHunk` loop computes filtered/stripped additions and
deletions and the kept content lines. -/
theorem convert_foldl (ls : List Str) (adds dels content : List Str) :
    ls.foldl convertStep (adds, dels, content) =
      (adds ++ (ls.filter (fun l => isAddLine l)).map (fun l => l.drop 1),
       dels ++ (ls.filter (fun l => isDelLine l)).map (fun l => l.drop 1),
       content ++ ls.filter (fun l => keepLine l)) := by
  induction ls generalizing adds dels content with
  | nil => simp
  | cons l rest ih =>
    simp only [List.foldl_cons, List.filter_cons]
    by_cases ha : isAddLine l = true
    · have hd : isDelLine l = false := add_del_disjoint l ha
      have hstep : convertStep (adds, dels, content) l =
          (adds ++ [l.drop 1], dels, content ++ [l]) := by
        simp only [convertStep, if_pos ha]
      have hk : keepLine l = true := by simp [keepLine, ha]
      rw [hstep, ih]
      simp [ha, hd, hk]
    · have ha' : isAddLine l = false := by simpa using ha
      by_cases hd : isDelLine l = true
      · have hstep : convertStep (adds, dels, content) l =
            (adds, dels ++ [l.drop 1], content ++ [l]) := by
          simp only [convertStep, ha', hd]
          simp
        have hk : keepLine l = true := by simp [keepLine, hd]
        rw [hstep, ih]
        simp [ha', hd, hk]
      · have hd' : isDelLine l = false := by simpa using hd
        by_cases hsp : (startsWith (str " ") l = true ∨ l = [])
        · have hstep : convertStep (adds, dels, content) l =
              (adds, dels, content ++ [l]) := by
            simp only [convertStep, ha', hd']
            simp only [Bool.false_eq_true, if_false, if_pos hsp]
          have hk : keepLine l = true := by
            simp only [keepLine, ha', hd', Bool.false_or, Bool.or_eq_true,
              decide_eq_true_eq]
            exact hsp
          rw [hstep, ih]
          simp [ha', hd', hk]
        · have hstep : convertStep (adds, dels, content) l =
              (adds, dels, content) := by
            simp only [convertStep, ha', hd']
            simp only [Bool.false_eq_true, if_false, if_neg hsp]
          have hk : keepLine l = false := by
            simp only [keepLine, ha', hd', Bool.false_or]
            simp only [Bool.or_eq_true, decide_eq_true_eq] at hsp ⊢
            simpa using hsp
          rw [hstep, ih]
          simp [ha', hd', hk]

/-- Additions of a materialized hunk: the `+`-lines, markers stripped. -/
theorem convertHunk_additions (raw : RawHunk) (fn : Str) :
    (convertHunk raw fn).additions =
      (raw.lines.filter (fun l => isAddLine l)).map (fun l => l.drop 1) := by
  simp [convertHunk, convert_foldl]

/-- Deletions of a materialized hunk: the `-`-lines, markers stripped. -/
theorem convertHunk_deletions (raw : RawHunk) (fn : Str) :
    (convertHunk raw fn).deletions =
      (raw.lines.filter (fun l => isDelLine l)).map (fun l => l.drop 1) := by
  simp [convertHunk, convert_foldl]

/-- Content of a materialized hunk: the kept lines joined by newlines. -/
theorem convertHunk_content (raw : RawHunk) (fn : Str) :
    (convertHunk raw fn).content = joinNl (raw.lines.filter (fun l => keepLine l)) := by
  simp [convertHunk, convert_foldl]

/-! ### File-level counter invariant (for the additions/deletions totals) -/

/-- Total number of addition lines across materialized hunks. -/
def addLen (hs : List DiffHunk) : Nat := (hs.map (fun h => h.additions.length)).sum

/-- Total number of deletion lines across materialized hunks. -/
def delLen (hs : List DiffHunk) : Nat := (hs.map (fun h => h.deletions.length)).sum

/-- Number of addition lines buffered in the open raw hunk. -/
def rawAdds : Option RawHunk → Nat
  | some rh => (rh.lines.filter (fun l => isAddLine l)).length
  | none => 0

/-- Number of deletion lines buffered in the open raw hunk. -/
def rawDels : Option RawHunk → Nat
  | some rh => (rh.lines.filter (fun l => isDelLine l)).length
  | none => 0

/-- Invariant of the scanning loop: every completed file's counters equal
its hunks' totals, and the current file's counters equal its closed hunks'
totals plus the open raw hunk's buffered lines. -/
def CounterInv (st : ParseState) : Prop :=
  (∀ f ∈ st.files, f.additions = addLen f.hunks ∧ f.deletions = delLen f.hunks) ∧
  (∀ f, st.currentFile = some f →
    f.additions = addLen f.hunks + rawAdds st.currentHunk ∧
    f.deletions = delLen f.hunks + rawDels st.currentHunk)

theorem addLen_append (hs : List DiffHunk) (h : DiffHunk) :
    addLen (hs ++ [h]) = addLen hs + h.additions.length := by
  simp [addLen]

theorem delLen_append (hs : List DiffHunk) (h : DiffHunk) :
    delLen (hs ++ [h]) = delLen hs + h.deletions.length := by
  simp [delLen]

theorem convertHunk_add_length (rh : RawHunk) (fn : Str) :
    (convertHunk rh fn).additions.length = rawAdds (some rh) := by
  rw [convertHunk_additions]; simp [rawAdds]

theorem convertHunk_del_length (rh : RawHunk) (fn : Str) :
    (convertHunk rh fn).deletions.length = rawDels (some rh) := by
  rw [convertHunk_deletions]; simp [rawDels]

/-- Closing the open hunk into the current file preserves the counters. -/
theorem closeHunk_counter (st : ParseState) (hInv : CounterInv st) :
    ∀ f, closeHunk st = some f →
      f.additions = addLen f.hunks ∧ f.deletions = delLen f.hunks := by
  intro f hf
  unfold closeHunk at hf
  rcases hcf : st.currentFile with _ | f0
  · rw [hcf] at hf; simp at hf
  · rcases hch : st.currentHunk with _ | rh
    · rw [hcf, hch] at hf
      simp at hf
      subst hf
      have := (hInv.2 f0 hcf)
      rw [hch] at this
      simpa [rawAdds, rawDels] using this
    · rw [hcf, hch] at hf
      simp at hf
      subst hf
      have h0 := (hInv.2 f0 hcf)
      rw [hch] at h0
      constructor
      · simp [addLen_append, convertHunk_add_length, h0.1]
      · simp [delLen_append, convertHunk_del_length, h0.2]

/-! ### Branch characterizations of `stepLine` -/

/-- `diff --git` branch of the loop. -/
theorem stepLine_git (st : ParseState) (l : Str)
    (h1 : startsWith (str "diff --git") l = true) :
    stepLine st l =
      { files := match closeHunk st with
          | some f => st.files ++ [f]
          | none => st.files
        currentFile := some ⟨extractFilename l, [], 0, 0⟩
        currentHunk := none } := by
  simp only [stepLine, if_pos h1]

/-- `index `/`---`/`+++` lines are skipped. -/
theorem stepLine_skip (st : ParseState) (l : Str)
    (h1 : ¬ startsWith (str "diff --git") l = true)
    (h2 : startsWith (str "index ") l = true ∨ startsWith (str "---") l = true ∨
      startsWith (str "+++") l = true) :
    stepLine st l = st := by
  simp only [stepLine, if_neg h1, if_pos h2]

/-- A matching hunk header closes the open hunk and opens a new one. -/
theorem stepLine_header (st : ParseState) (l : Str) (hd : HunkHeader)
    (h1 : ¬ startsWith (str "diff --git") l = true)
    (h2 : ¬ (startsWith (str "index ") l = true ∨ startsWith (str "---") l = true ∨
      startsWith (str "+++") l = true))
    (h3 : startsWith (str "@@") l = true)
    (hh : findHunkHeader l = some hd) :
    stepLine st l =
      { st with currentFile := closeHunk st, currentHunk := some (rawOfHeader hd) } := by
  simp only [stepLine, if_neg h1, if_neg h2, if_pos h3, hh]

/-- A `@@` line that does not match the pattern still closes the open hunk
into the current file, and leaves `currentHunk` as it was. -/
theorem stepLine_header_bad (st : ParseState) (l : Str)
    (h1 : ¬ startsWith (str "diff --git") l = true)
    (h2 : ¬ (startsWith (str "index ") l = true ∨ startsWith (str "---") l = true ∨
      startsWith (str "+++") l = true))
    (h3 : startsWith (str "@@") l = true)
    (hh : findHunkHeader l = none) :
    stepLine st l = { st with currentFile := closeHunk st } := by
  simp only [stepLine, if_neg h1, if_neg h2, if_pos h3, hh]

/-- With no open hunk, a non-header line changes nothing. -/
theorem stepLine_noHunk (files : List DiffFile) (cf : Option DiffFile) (l : Str)
    (h1 : ¬ startsWith (str "diff --git") l = true)
    (h2 : ¬ (startsWith (str "index ") l = true ∨ startsWith (str "---") l = true ∨
      startsWith (str "+++") l = true))
    (h3 : ¬ startsWith (str "@@") l = true) :
    stepLine ⟨files, cf, none⟩ l = ⟨files, cf, none⟩ := by
  simp only [stepLine, if_neg h1, if_neg h2, if_neg h3]

/-- A line that is not content-shaped changes nothing even with an open hunk. -/
theorem stepLine_content_nomatch (files : List DiffFile) (cf : Option DiffFile)
    (rh : RawHunk) (l : Str)
    (h1 : ¬ startsWith (str "diff --git") l = true)
    (h2 : ¬ (startsWith (str "index ") l = true ∨ startsWith (str "---") l = true ∨
      startsWith (str "+++") l = true))
    (h3 : ¬ startsWith (str "@@") l = true)
    (h4 : ¬ (startsWith (str "+") l = true ∨ startsWith (str "-") l = true ∨
      startsWith (str " ") l = true ∨ l = [])) :
    stepLine ⟨files, cf, some rh⟩ l = ⟨files, cf, some rh⟩ := by
  simp only [stepLine, if_neg h1, if_neg h2, if_neg h3, if_neg h4]

/-- Content line with no current file: buffered, nothing counted. -/
theorem stepLine_content_nofile (files : List DiffFile) (rh : RawHunk) (l : Str)
    (h1 : ¬ startsWith (str "diff --git") l = true)
    (h2 : ¬ (startsWith (str "index ") l = true ∨ startsWith (str "---") l = true ∨
      startsWith (str "+++") l = true))
    (h3 : ¬ startsWith (str "@@") l = true)
    (h4 : startsWith (str "+") l = true ∨ startsWith (str "-") l = true ∨
      startsWith (str " ") l = true ∨ l = []) :
    stepLine ⟨files, none, some rh⟩ l =
      ⟨files, none, some { rh with lines := rh.lines ++ [l] }⟩ := by
  simp only [stepLine, if_neg h1, if_neg h2, if_neg h3, if_pos h4]

/-- Addition content line: buffered and counted. -/
theorem stepLine_content_add (files : List DiffFile) (f0 : DiffFile)
    (rh : RawHunk) (l : Str)
    (h1 : ¬ startsWith (str "diff --git") l = true)
    (h2 : ¬ (startsWith (str "index ") l = true ∨ startsWith (str "---") l = true ∨
      startsWith (str "+++") l = true))
    (h3 : ¬ startsWith (str "@@") l = true)
    (h4 : startsWith (str "+") l = true ∨ startsWith (str "-") l = true ∨
      startsWith (str " ") l = true ∨ l = [])
    (hA : isAddLine l = true) :
    stepLine ⟨files, some f0, some rh⟩ l =
      ⟨files, some { f0 with additions := f0.additions + 1 },
        some { rh with lines := rh.lines ++ [l] }⟩ := by
  simp only [stepLine, if_neg h1, if_neg h2, if_neg h3, if_pos h4, if_pos hA]

/-- Deletion content line: buffered and counted. -/
theorem stepLine_content_del (files : List DiffFile) (f0 : DiffFile)
    (rh : RawHunk) (l : Str)
    (h1 : ¬ startsWith (str "diff --git") l = true)
    (h2 : ¬ (startsWith (str "index ") l = true ∨ startsWith (str "---") l = true ∨
      startsWith (str "+++") l = true))
    (h3 : ¬ startsWith (str "@@") l = true)
    (h4 : startsWith (str "+") l = true ∨ startsWith (str "-") l = true ∨
      startsWith (str " ") l = true ∨ l = [])
    (hA : isAddLine l = false) (hD : isDelLine l = true) :
    stepLine ⟨files, some f0, some rh⟩ l =
      ⟨files, some { f0 with deletions := f0.deletions + 1 },
        some { rh with lines := rh.lines ++ [l] }⟩ := by
  simp only [stepLine, if_neg h1, if_neg h2, if_neg h3, if_pos h4, hA,
    Bool.false_eq_true, if_false, if_pos hD]

/-- Context or empty content line: buffered, not counted. -/
theorem stepLine_content_ctx (files : List DiffFile) (f0 : DiffFile)
    (rh : RawHunk) (l : Str)
    (h1 : ¬ startsWith (str "diff --git") l = true)
    (h2 : ¬ (startsWith (str "index ") l = true ∨ startsWith (str "---") l = true ∨
      startsWith (str "+++") l = true))
    (h3 : ¬ startsWith (str "@@") l = true)
    (h4 : startsWith (str "+") l = true ∨ startsWith (str "-") l = true ∨
      startsWith (str " ") l = true ∨ l = [])
    (hA : isAddLine l = false) (hD : isDelLine l = false) :
    stepLine ⟨files, some f0, some rh⟩ l =
      ⟨files, some f0, some { rh with lines := rh.lines ++ [l] }⟩ := by
  simp only [stepLine, if_neg h1, if_neg h2, if_neg h3, if_pos h4, hA, hD,
    Bool.false_eq_true, if_false]

/-- One parse step preserves the counter invariant, provided every `@@`
line in play matches the hunk-header pattern. -/
theorem stepLine_counter (st : ParseState) (l : Str)
    (hok : startsWith (str "@@") l = true → (findHunkHeader l).isSome)
    (hInv : CounterInv st) : CounterInv (stepLine st l) := by
  by_cases h1 : startsWith (str "diff --git") l = true
  · rw [stepLine_git st l h1]
    constructor
    · intro f hf
      rcases hclose : closeHunk st with _ | fc
      · simp only [hclose] at hf
        exact hInv.1 f hf
      · simp only [hclose] at hf
        rcases List.mem_append.mp hf with hf | hf
        · exact hInv.1 f hf
        · have : f = fc := by simpa using hf
          subst this
          exact closeHunk_counter st hInv f hclose
    · intro f hf
      have : (⟨str "unknown", [], 0, 0⟩ : DiffFile).additions = 0 := rfl
      simp only [Option.some.injEq] at hf
      subst hf
      simp [addLen, delLen, rawAdds, rawDels]
  · by_cases h2 : (startsWith (str "index ") l = true ∨ startsWith (str "---") l = true ∨
        startsWith (str "+++") l = true)
    · rw [stepLine_skip st l h1 h2]; exact hInv
    · by_cases h3 : startsWith (str "@@") l = true
      · rcases hh : findHunkHeader l with _ | hd
        · exact absurd (hok h3) (by simp [hh])
        · rw [stepLine_header st l hd h1 h2 h3 hh]
          constructor
          · intro f hf
            exact hInv.1 f hf
          · intro f hf
            have := closeHunk_counter st hInv f hf
            simpa [rawAdds, rawDels, rawOfHeader] using this
      · obtain ⟨files, cf, ch⟩ := st
        rcases ch with _ | rh
        · rw [stepLine_noHunk files cf l h1 h2 h3]; exact hInv
        · by_cases h4 : (startsWith (str "+") l = true ∨ startsWith (str "-") l = true ∨
              startsWith (str " ") l = true ∨ l = [])
          · rcases cf with _ | f0
            · rw [stepLine_content_nofile files rh l h1 h2 h3 h4]
              constructor
              · intro f hf
                exact hInv.1 f hf
              · intro f hf
                exact absurd hf (by simp)
            · have h0 := hInv.2 f0 rfl
              by_cases hA : isAddLine l = true
              · have hD : isDelLine l = false := add_del_disjoint l hA
                rw [stepLine_content_add files f0 rh l h1 h2 h3 h4 hA]
                constructor
                · intro f hf
                  exact hInv.1 f hf
                · intro f hf
                  have hf2 : f = { f0 with additions := f0.additions + 1 } := by
                    simpa using hf.symm
                  subst hf2
                  constructor
                  · simp [rawAdds, List.filter_append, hA]
                    have := h0.1
                    simp [rawAdds] at this
                    omega
                  · simp [rawDels, List.filter_append, hD]
                    have := h0.2
                    simp [rawDels] at this
                    omega
              · have hA2 : isAddLine l = false := by simpa using hA
                by_cases hD : isDelLine l = true
                · rw [stepLine_content_del files f0 rh l h1 h2 h3 h4 hA2 hD]
                  constructor
                  · intro f hf
                    exact hInv.1 f hf
                  · intro f hf
                    have hf2 : f = { f0 with deletions := f0.deletions + 1 } := by
                      simpa using hf.symm
                    subst hf2
                    constructor
                    · simp [rawAdds, List.filter_append, hA2]
                      have := h0.1
                      simp [rawAdds] at this
                      omega
                    · simp [rawDels, List.filter_append, hD]
                      have := h0.2
                      simp [rawDels] at this
                      omega
                · have hD2 : isDelLine l = false := by simpa using hD
                  rw [stepLine_content_ctx files f0 rh l h1 h2 h3 h4 hA2 hD2]
                  constructor
                  · intro f hf
                    exact hInv.1 f hf
                  · intro f hf
                    have hf2 : f = f0 := by simpa using hf.symm
                    subst hf2
                    constructor
                    · simp [rawAdds, List.filter_append, hA2]
                      have := h0.1
                      simp [rawAdds] at this
                      omega
                    · simp [rawDels, List.filter_append, hD2]
                      have := h0.2
                      simp [rawDels] at this
                      omega
          · rw [stepLine_content_nomatch files cf rh l h1 h2 h3 h4]; exact hInv

/-- Fold preservation: a property preserved by every step along lines
satisfying `Q` holds of the fold. -/
theorem foldl_pres (P : ParseState → Prop) (Q : Str → Prop)
    (hstep : ∀ st l, Q l → P st → P (stepLine st l)) :
    ∀ (ls : List Str) (st : ParseState), (∀ l ∈ ls, Q l) → P st →
      P (ls.foldl stepLine st) := by
  intro ls
  induction ls with
  | nil => intro st _ h; simpa using h
  | cons l rest ih =>
    intro st hQ hP
    simp only [List.foldl_cons]
    exact ih (stepLine st l) (fun x hx => hQ x (List.mem_cons_of_mem l hx))
      (hstep st l (hQ l (List.mem_cons_self l rest)) hP)

/-- The counters of every parsed file equal the hunk totals, for inputs
whose `@@`-prefixed lines all match the hunk-header pattern. -/
theorem parseDiff_counters (diffText : Str)
    (hvalid : ∀ l ∈ splitOnNl diffText,
      startsWith (str "@@") l = true → (findHunkHeader l).isSome) :
    ∀ f ∈ (parseDiff diffText).files,
      f.additions = addLen f.hunks ∧ f.deletions = delLen f.hunks := by
  have hInv : CounterInv ((splitOnNl diffText).foldl stepLine ⟨[], none, none⟩) :=
    foldl_pres CounterInv
      (fun l => startsWith (str "@@") l = true → (findHunkHeader l).isSome)
      (fun st l hq hp => stepLine_counter st l hq hp)
      (splitOnNl diffText) ⟨[], none, none⟩ hvalid (by constructor <;> simp)
  intro f hf
  set st := (splitOnNl diffText).foldl stepLine ⟨[], none, none⟩ with hst
  have : (parseDiff diffText).files = (finalizeState st).files := rfl
  rw [this] at hf
  unfold finalizeState at hf
  rcases hclose : closeHunk st with _ | fc
  · simp only [hclose] at hf
    exact hInv.1 f hf
  · simp only [hclose] at hf
    rcases List.mem_append.mp hf with hf | hf
    · exact hInv.1 f hf
    · have : f = fc := by simpa using hf
      subst this
      exact closeHunk_counter st hInv f hclose

/-! ### Behaviour on sections that should parse to nothing -/

theorem startsWith_cons (c : Char) (p : Str) (s : Str)
    (h : startsWith (c :: p) s = true) : ∃ t, s = c :: t := by
  rcases s with _ | ⟨d, t⟩
  · simp [startsWith, List.isPrefixOf] at h
  · refine ⟨t, ?_⟩
    simp only [startsWith, List.isPrefixOf, Bool.and_eq_true, beq_iff_eq] at h
    rw [h.1]

/-- A content-shaped line does not begin any structural header. -/
theorem shape_first_char (l : Str)
    (h4 : startsWith (str "+") l = true ∨ startsWith (str "-") l = true ∨
      startsWith (str " ") l = true ∨ l = []) :
    startsWith (str "diff --git") l = false ∧ startsWith (str "@@") l = false := by
  rcases h4 with h | h | h | h
  · obtain ⟨t, rfl⟩ := startsWith_cons _ _ _ h
    constructor <;> simp [startsWith, str, List.isPrefixOf]
  · obtain ⟨t, rfl⟩ := startsWith_cons _ _ _ h
    constructor <;> simp [startsWith, str, List.isPrefixOf]
  · obtain ⟨t, rfl⟩ := startsWith_cons _ _ _ h
    constructor <;> simp [startsWith, str, List.isPrefixOf]
  · subst h
    constructor <;> simp [startsWith, str, List.isPrefixOf]

/-- A content-shaped line with no open hunk changes nothing:
either it is skipped as structural noise, or the content branch requires
an open hunk. -/
theorem stepLine_no_open_hunk (files : List DiffFile) (cf : Option DiffFile)
    (l : Str)
    (h4 : startsWith (str "+") l = true ∨ startsWith (str "-") l = true ∨
      startsWith (str " ") l = true ∨ l = []) :
    stepLine ⟨files, cf, none⟩ l = ⟨files, cf, none⟩ := by
  have hfc := shape_first_char l h4
  have h1 : ¬ startsWith (str "diff --git") l = true := by simp [hfc.1]
  by_cases h2 : (startsWith (str "index ") l = true ∨ startsWith (str "---") l = true ∨
      startsWith (str "+++") l = true)
  · exact stepLine_skip _ l h1 h2
  · have h3 : ¬ startsWith (str "@@") l = true := by simp [hfc.2]
    exact stepLine_noHunk files cf l h1 h2 h3

/-- With no current file, closing yields nothing. -/
theorem closeHunk_none (st : ParseState) (hcf : st.currentFile = none) :
    closeHunk st = none := by
  unfold closeHunk
  rw [hcf]

/-- A `@@` line that does not match the pattern changes nothing when no
hunk is open. -/
theorem stepLine_bad_header_no_hunk (files : List DiffFile) (cf : Option DiffFile)
    (l : Str) (h3 : startsWith (str "@@") l = true)
    (hh : findHunkHeader l = none) :
    stepLine ⟨files, cf, none⟩ l = ⟨files, cf, none⟩ := by
  obtain ⟨t, rfl⟩ := startsWith_cons _ _ _ h3
  have h1 : ¬ startsWith (str "diff --git") ('@' :: t) = true := by
    simp [startsWith, str, List.isPrefixOf]
  have h2 : ¬ (startsWith (str "index ") ('@' :: t) = true ∨
      startsWith (str "---") ('@' :: t) = true ∨
      startsWith (str "+++") ('@' :: t) = true) := by
    simp [startsWith, str, List.isPrefixOf]
  rw [stepLine_header_bad _ _ h1 h2 h3 hh]
  have : closeHunk ⟨files, cf, none⟩ = cf := by
    unfold closeHunk
    rcases cf with _ | f <;> rfl
  rw [this]

/-- No-file invariant: before the first `diff --git` header no file exists. -/
def NoFileInv (st : ParseState) : Prop :=
  st.files = [] ∧ st.currentFile = none

/-- Any non-`diff --git` line preserves the no-file invariant. -/
theorem stepLine_nofile (st : ParseState) (l : Str)
    (h1 : ¬ startsWith (str "diff --git") l = true)
    (h : NoFileInv st) : NoFileInv (stepLine st l) := by
  by_cases h2 : (startsWith (str "index ") l = true ∨ startsWith (str "---") l = true ∨
      startsWith (str "+++") l = true)
  · rw [stepLine_skip st l h1 h2]; exact h
  · by_cases h3 : startsWith (str "@@") l = true
    · rcases hh : findHunkHeader l with _ | hd
      · rw [stepLine_header_bad st l h1 h2 h3 hh]
        exact ⟨h.1, closeHunk_none st h.2⟩
      · rw [stepLine_header st l hd h1 h2 h3 hh]
        exact ⟨h.1, closeHunk_none st h.2⟩
    · obtain ⟨files, cf, ch⟩ := st
      obtain ⟨hfi, hcf⟩ := h
      simp only at hfi hcf
      subst hfi
      subst hcf
      rcases ch with _ | rh
      · rw [stepLine_noHunk [] none l h1 h2 h3]
        exact ⟨rfl, rfl⟩
      · by_cases h4 : (startsWith (str "+") l = true ∨ startsWith (str "-") l = true ∨
            startsWith (str " ") l = true ∨ l = [])
        · rw [stepLine_content_nofile [] rh l h1 h2 h3 h4]
          exact ⟨rfl, rfl⟩
        · rw [stepLine_content_nomatch [] none rh l h1 h2 h3 h4]
          exact ⟨rfl, rfl⟩

/-- Without any `diff --git` line, the parser emits no file at all. -/
theorem parseDiffLines_no_git (lines : List Str)
    (h : ∀ l ∈ lines, ¬ startsWith (str "diff --git") l = true) :
    parseDiffLines lines = ⟨[]⟩ := by
  have hnf : NoFileInv (lines.foldl stepLine ⟨[], none, none⟩) :=
    foldl_pres NoFileInv (fun l => ¬ startsWith (str "diff --git") l = true)
      (fun st l hq hp => stepLine_nofile st l hq hp)
      lines ⟨[], none, none⟩ h ⟨rfl, rfl⟩
  unfold parseDiffLines finalizeState
  rw [closeHunk_none _ hnf.2]
  simp [hnf.1]

/-- Lines before the first `diff --git` header contribute nothing. -/
theorem parseDiffLines_drop_preamble (pre rest : List Str) (l0 : Str)
    (hpre : ∀ l ∈ pre, ¬ startsWith (str "diff --git") l = true)
    (hl0 : startsWith (str "diff --git") l0 = true) :
    parseDiffLines (pre ++ l0 :: rest) = parseDiffLines (l0 :: rest) := by
  have hnf : NoFileInv (pre.foldl stepLine ⟨[], none, none⟩) :=
    foldl_pres NoFileInv (fun l => ¬ startsWith (str "diff --git") l = true)
      (fun st l hq hp => stepLine_nofile st l hq hp)
      pre ⟨[], none, none⟩ hpre ⟨rfl, rfl⟩
  unfold parseDiffLines
  rw [List.foldl_append]
  simp only [List.foldl_cons]
  have heq : stepLine (pre.foldl stepLine ⟨[], none, none⟩) l0 =
      stepLine ⟨[], none, none⟩ l0 := by
    rw [stepLine_git _ l0 hl0, stepLine_git _ l0 hl0]
    rw [closeHunk_none _ hnf.2, closeHunk_none _ rfl, hnf.1]
  rw [heq]

/-! ### Round-trip of hunk content (for idempotent re-parsing) -/

/-- A buffered line is content-shaped and newline-free. -/
def Shaped (l : Str) : Prop :=
  (isAddLine l = true ∨ isDelLine l = true ∨ startsWith (str " ") l = true ∨ l = []) ∧
  '\n' ∉ l

/-- The line re-classifier of the idempotence property: lines starting with
`+` but not `+++` are additions with the marker stripped; lines starting
with `-` but not `---` are deletions with the marker stripped. -/
def reclassify (lines : List Str) : List Str × List Str :=
  ((lines.filter (fun l => isAddLine l)).map (fun l => l.drop 1),
   (lines.filter (fun l => isDelLine l)).map (fun l => l.drop 1))

/-- Re-classifying the split content of a hunk reproduces its
additions/deletions split. -/
def GoodHunk (h : DiffHunk) : Prop :=
  reclassify (splitOnNl h.content) = (h.additions, h.deletions)

theorem shaped_keep (l : Str) (h : Shaped l) : keepLine l = true := by
  rcases h.1 with h1 | h1 | h1 | h1 <;> simp [keepLine, h1]

/-- A hunk materialized from shaped lines round-trips. -/
theorem convertHunk_good (raw : RawHunk) (fn : Str)
    (h : ∀ l ∈ raw.lines, Shaped l) : GoodHunk (convertHunk raw fn) := by
  have hkeep : raw.lines.filter (fun l => keepLine l) = raw.lines :=
    List.filter_eq_self.mpr (fun l hl => shaped_keep l (h l hl))
  unfold GoodHunk
  rw [convertHunk_content, convertHunk_additions, convertHunk_deletions, hkeep]
  rcases hnil : raw.lines with _ | ⟨l0, ls⟩
  · simp [joinNl, splitOnNl, reclassify, isAddLine, isDelLine, startsWith,
      str, List.isPrefixOf]
  · rw [← hnil]
    rw [splitOnNl_joinNl raw.lines (by rw [hnil]; simp)
      (fun l hl => (h l hl).2)]
    rfl

/-- Parse-state invariant: buffered lines are shaped, and all materialized
hunks round-trip. -/
def ShapedInv (st : ParseState) : Prop :=
  (∀ rh, st.currentHunk = some rh → ∀ l ∈ rh.lines, Shaped l) ∧
  (∀ f ∈ st.files, ∀ h ∈ f.hunks, GoodHunk h) ∧
  (∀ f, st.currentFile = some f → ∀ h ∈ f.hunks, GoodHunk h)

theorem closeHunk_good (st : ParseState) (hInv : ShapedInv st) :
    ∀ f, closeHunk st = some f → ∀ h ∈ f.hunks, GoodHunk h := by
  intro f hf
  unfold closeHunk at hf
  rcases hcf : st.currentFile with _ | f0
  · rw [hcf] at hf; simp at hf
  · rcases hch : st.currentHunk with _ | rh
    · rw [hcf, hch] at hf
      simp at hf
      subst hf
      exact hInv.2.2 _ hcf
    · rw [hcf, hch] at hf
      simp at hf
      subst hf
      intro h hmem
      rcases List.mem_append.mp hmem with hm | hm
      · exact hInv.2.2 f0 hcf h hm
      · have : h = convertHunk rh f0.filename := by simpa using hm
        subst this
        exact convertHunk_good rh f0.filename (hInv.1 rh hch)

/-- Derivation of shapedness for a line accepted by the content branch. -/
theorem content_line_shaped (l : Str)
    (h2 : ¬ (startsWith (str "index ") l = true ∨ startsWith (str "---") l = true ∨
      startsWith (str "+++") l = true))
    (h4 : startsWith (str "+") l = true ∨ startsWith (str "-") l = true ∨
      startsWith (str " ") l = true ∨ l = [])
    (hnl : '\n' ∉ l) : Shaped l := by
  push_neg at h2
  refine ⟨?_, hnl⟩
  rcases h4 with h | h | h | h
  · left
    simp [isAddLine, h]
    simpa using h2.2.2
  · right; left
    simp [isDelLine, h]
    simpa using h2.2.1
  · right; right; left; exact h
  · right; right; right; exact h

/-- One parse step preserves the shaped invariant, for newline-free lines. -/
theorem stepLine_shaped (st : ParseState) (l : Str) (hnl : '\n' ∉ l)
    (hInv : ShapedInv st) : ShapedInv (stepLine st l) := by
  by_cases h1 : startsWith (str "diff --git") l = true
  · rw [stepLine_git st l h1]
    refine ⟨by simp, ?_, by simp⟩
    intro f hf
    rcases hclose : closeHunk st with _ | fc
    · simp only [hclose] at hf
      exact hInv.2.1 f hf
    · simp only [hclose] at hf
      rcases List.mem_append.mp hf with hf | hf
      · exact hInv.2.1 f hf
      · have : f = fc := by simpa using hf
        subst this
        exact closeHunk_good st hInv f hclose
  · by_cases h2 : (startsWith (str "index ") l = true ∨ startsWith (str "---") l = true ∨
        startsWith (str "+++") l = true)
    · rw [stepLine_skip st l h1 h2]; exact hInv
    · by_cases h3 : startsWith (str "@@") l = true
      · rcases hh : findHunkHeader l with _ | hd
        · rw [stepLine_header_bad st l h1 h2 h3 hh]
          refine ⟨fun rh hrh => hInv.1 rh hrh, fun f hf => hInv.2.1 f hf, ?_⟩
          intro f hf
          exact closeHunk_good st hInv f hf
        · rw [stepLine_header st l hd h1 h2 h3 hh]
          refine ⟨?_, fun f hf => hInv.2.1 f hf, ?_⟩
          · intro rh hrh
            have h5 : rawOfHeader hd = rh := by simpa using hrh
            subst h5
            simp [rawOfHeader]
          · intro f hf
            exact closeHunk_good st hInv f hf
      · obtain ⟨files, cf, ch⟩ := st
        rcases ch with _ | rh
        · rw [stepLine_noHunk files cf l h1 h2 h3]; exact hInv
        · by_cases h4 : (startsWith (str "+") l = true ∨ startsWith (str "-") l = true ∨
              startsWith (str " ") l = true ∨ l = [])
          · have hsh : Shaped l := content_line_shaped l h2 h4 hnl
            have hlines : ∀ x ∈ rh.lines ++ [l], Shaped x := by
              intro x hx
              rcases List.mem_append.mp hx with hx | hx
              · exact hInv.1 rh rfl x hx
              · have : x = l := by simpa using hx
                subst this; exact hsh
            rcases cf with _ | f0
            · rw [stepLine_content_nofile files rh l h1 h2 h3 h4]
              refine ⟨?_, fun f hf => hInv.2.1 f hf, by simp⟩
              intro rh2 hrh2
              have h5 : { rh with lines := rh.lines ++ [l] } = rh2 := by simpa using hrh2
              subst h5
              exact hlines
            · by_cases hA : isAddLine l = true
              · have hD : isDelLine l = false := add_del_disjoint l hA
                rw [stepLine_content_add files f0 rh l h1 h2 h3 h4 hA]
                refine ⟨?_, fun f hf => hInv.2.1 f hf, ?_⟩
                · intro rh2 hrh2
                  have h5 : { rh with lines := rh.lines ++ [l] } = rh2 := by simpa using hrh2
                  subst h5
                  exact hlines
                · intro f hf
                  have : f = { f0 with additions := f0.additions + 1 } := by
                    simpa using hf.symm
                  subst this
                  exact hInv.2.2 f0 rfl
              · have hA2 : isAddLine l = false := by simpa using hA
                by_cases hD : isDelLine l = true
                · rw [stepLine_content_del files f0 rh l h1 h2 h3 h4 hA2 hD]
                  refine ⟨?_, fun f hf => hInv.2.1 f hf, ?_⟩
                  · intro rh2 hrh2
                    have h5 : { rh with lines := rh.lines ++ [l] } = rh2 := by simpa using hrh2
                    subst h5
                    exact hlines
                  · intro f hf
                    have : f = { f0 with deletions := f0.deletions + 1 } := by
                      simpa using hf.symm
                    subst this
                    exact hInv.2.2 f0 rfl
                · have hD2 : isDelLine l = false := by simpa using hD
                  rw [stepLine_content_ctx files f0 rh l h1 h2 h3 h4 hA2 hD2]
                  refine ⟨?_, fun f hf => hInv.2.1 f hf, ?_⟩
                  · intro rh2 hrh2
                    have h5 : { rh with lines := rh.lines ++ [l] } = rh2 := by simpa using hrh2
                    subst h5
                    exact hlines
                  · intro f hf
                    have : f = f0 := by simpa using hf.symm
                    subst this
                    exact hInv.2.2 _ rfl
          · rw [stepLine_content_nomatch files cf rh l h1 h2 h3 h4]; exact hInv

/-- Every hunk materialized by the parser round-trips through the
line classifier. -/
theorem parseDiff_good (diffText : Str) :
    ∀ f ∈ (parseDiff diffText).files, ∀ h ∈ f.hunks, GoodHunk h := by
  have hInv : ShapedInv ((splitOnNl diffText).foldl stepLine ⟨[], none, none⟩) :=
    foldl_pres ShapedInv (fun l => '\n' ∉ l)
      (fun st l hq hp => stepLine_shaped st l hq hp)
      (splitOnNl diffText) ⟨[], none, none⟩ (splitOnNl_no_nl diffText)
      (by refine ⟨by simp, by simp, by simp⟩)
  intro f hf
  set st := (splitOnNl diffText).foldl stepLine ⟨[], none, none⟩ with hst
  have : (parseDiff diffText).files = (finalizeState st).files := rfl
  rw [this] at hf
  unfold finalizeState at hf
  rcases hclose : closeHunk st with _ | fc
  · simp only [hclose] at hf
    exact hInv.2.1 f hf
  · simp only [hclose] at hf
    rcases List.mem_append.mp hf with hf | hf
    · exact hInv.2.1 f hf
    · have : f = fc := by simpa using hf
      subst this
      exact closeHunk_good st hInv f hclose

/-! ## Claim theorems about the diff parser -/

/-- Concrete diff inputs used to instantiate the parser theorems. -/
def c2sample : Str := str "diff --git a/a.ts b/a.ts\n@@ -1,2 +1,3 @@\n+x\n-y\n z"

def c3sample : Str := str "diff --git a/f.ts b/f.ts\n@@ -10,3 +10,5 @@\n+a"

def c10sample : Str := str "diff --git a/f.ts b/f.ts\n@@ -1,2 +1,3 @@\n+a\n-b\n c"

def c10hunk : DiffHunk :=
  { filename := str "f.ts", startLine := 1, endLine := 3,
    content := str "+a\n-b\n c",
    additions := [str "a"], deletions := [str "b"], context := [] }

def c10file : DiffFile :=
  { filename := str "f.ts", hunks := [c10hunk], additions := 1, deletions := 1 }

def c9pre : List Str :=
  [str "diff --git a/f.ts b/f.ts", str "@@ -1,1 +1,1 @@", str "+a"]

def c9post : List Str := [str "+b"]

/-- C2: for every unified-diff input whose `@@`-prefixed lines all match the
hunk-header pattern, each parsed file's `additions` counter equals the total
number of addition lines across its materialized hunks, and symmetrically
for `deletions`. -/
theorem c2_file_counters (diffText : Str)
    (hvalid : ∀ l ∈ splitOnNl diffText,
      startsWith (str "@@") l = true → (findHunkHeader l).isSome) :
    ∀ f ∈ (parseDiff diffText).files,
      f.additions = addLen f.hunks ∧ f.deletions = delLen f.hunks :=
  parseDiff_counters diffText hvalid

/-- Witness for C2 at a concrete valid diff. -/
theorem c2_file_counters_witness :
    (∀ l ∈ splitOnNl c2sample,
      startsWith (str "@@") l = true → (findHunkHeader l).isSome) ∧
    (∀ f ∈ (parseDiff c2sample).files,
      f.additions = addLen f.hunks ∧ f.deletions = delLen f.hunks) :=
  ⟨by decide, c2_file_counters c2sample (by decide)⟩

/-- C3: a materialized hunk's `startLine` is the header's post-image start
and its `endLine` is `newStart + newLines - 1`; a missing `,count` on
either side of a parsed header defaults that count to 1; and the header
`@@ -10,3 +10,5 @@` yields `startLine = 10`, `endLine = 14`. -/
theorem c3_line_ranges :
    (∀ (raw : RawHunk) (fn : Str),
      (convertHunk raw fn).startLine = (raw.newStart : Int) ∧
      (convertHunk raw fn).endLine = (raw.newStart : Int) + (raw.newLines : Int) - 1) ∧
    (∀ (l : Str) (hd : HunkHeader), findHunkHeader l = some hd →
      (rawOfHeader hd).newStart = hd.newStart ∧
      (rawOfHeader hd).newLines = hd.newCount.getD 1 ∧
      (rawOfHeader hd).oldLines = hd.oldCount.getD 1) ∧
    (findHunkHeader (str "@@ -10 +20 @@") = some ⟨10, none, 20, none⟩ ∧
      (rawOfHeader ⟨10, none, 20, none⟩).newLines = 1 ∧
      (rawOfHeader ⟨10, none, 20, none⟩).oldLines = 1) ∧
    ((parseDiff c3sample).files.map
      (fun f => f.hunks.map (fun h => (h.startLine, h.endLine))) = [[(10, 14)]]) := by
  refine ⟨?_, ?_, by decide, by decide⟩
  · intro raw fn
    constructor <;> simp [convertHunk]
  · intro l hd _
    exact ⟨rfl, rfl, rfl⟩

/-- Witness for C3's header-parse conjunct at a concrete header line. -/
theorem c3_line_ranges_witness :
    (rawOfHeader ⟨10, some 3, 10, some 5⟩).newLines = 5 ∧
    (rawOfHeader ⟨10, some 3, 10, some 5⟩).oldLines = 3 :=
  ⟨(c3_line_ranges.2.1 (str "@@ -10,3 +10,5 @@") ⟨10, some 3, 10, some 5⟩
      (by decide)).2.1,
   (c3_line_ranges.2.1 (str "@@ -10,3 +10,5 @@") ⟨10, some 3, 10, some 5⟩
      (by decide)).2.2⟩

/-- C9 (amended): `parseDiff` is a total function of its input in this
embedding (it throws nothing); no `diff --git` line means no file is
emitted; lines before the first `diff --git` header contribute nothing;
a content line with no open hunk changes nothing; and an `@@` line that
does not match the hunk-header pattern changes nothing when no hunk is
open.  (When a hunk is open, such a line flushes it early — see the
counterexample.) -/
theorem c9_unparseable_sections :
    (∀ lines : List Str, (∀ l ∈ lines, ¬ startsWith (str "diff --git") l = true) →
      parseDiffLines lines = ⟨[]⟩) ∧
    (∀ (pre rest : List Str) (l0 : Str),
      (∀ l ∈ pre, ¬ startsWith (str "diff --git") l = true) →
      startsWith (str "diff --git") l0 = true →
      parseDiffLines (pre ++ l0 :: rest) = parseDiffLines (l0 :: rest)) ∧
    (∀ (files : List DiffFile) (cf : Option DiffFile) (l : Str),
      (startsWith (str "+") l = true ∨ startsWith (str "-") l = true ∨
        startsWith (str " ") l = true ∨ l = []) →
      stepLine ⟨files, cf, none⟩ l = ⟨files, cf, none⟩) ∧
    (∀ (files : List DiffFile) (cf : Option DiffFile) (l : Str),
      startsWith (str "@@") l = true → findHunkHeader l = none →
      stepLine ⟨files, cf, none⟩ l = ⟨files, cf, none⟩) :=
  ⟨parseDiffLines_no_git, parseDiffLines_drop_preamble,
   stepLine_no_open_hunk, stepLine_bad_header_no_hunk⟩

/-- Witness for C9 at concrete inputs. -/
theorem c9_unparseable_sections_witness :
    parseDiffLines [str "@@ -1,1 +1,1 @@", str "+a", str "hello"] = ⟨[]⟩ ∧
    stepLine ⟨[], none, none⟩ (str "+a") = ⟨[], none, none⟩ ∧
    stepLine ⟨[], none, none⟩ (str "@@ bad") = ⟨[], none, none⟩ :=
  ⟨c9_unparseable_sections.1 [str "@@ -1,1 +1,1 @@", str "+a", str "hello"]
      (by decide),
   c9_unparseable_sections.2.2.1 [] none (str "+a") (by decide),
   c9_unparseable_sections.2.2.2 [] none (str "@@ bad") (by decide) (by decide)⟩

/-- C9 counterexample: an `@@` line that does not match the hunk-header
pattern is *not* inert when a hunk is open: it flushes the open hunk early,
which is then emitted again in extended form, so the parse differs from the
parse without that line. -/
theorem c9_counterexample :
    findHunkHeader (str "@@ bad") = none ∧
    parseDiffLines (c9pre ++ [str "@@ bad"] ++ c9post) ≠
      parseDiffLines (c9pre ++ c9post) ∧
    ((parseDiffLines (c9pre ++ [str "@@ bad"] ++ c9post)).files.map
      (fun f => f.hunks.map (fun h => h.additions)) = [[[str "a"], [str "a", str "b"]]]) := by
  refine ⟨by decide, by decide, by decide⟩

/-- C10: for every hunk produced by `parseDiff`, splitting its `content`
back into lines and re-classifying each line reproduces exactly its
`additions` and `deletions` sequences, in order. -/
theorem c10_reparse_idempotent (diffText : Str) :
    ∀ f ∈ (parseDiff diffText).files, ∀ h ∈ f.hunks,
      reclassify (splitOnNl h.content) = (h.additions, h.deletions) :=
  parseDiff_good diffText

/-- Witness for C10 at a concrete parsed hunk. -/
theorem c10_reparse_idempotent_witness :
    reclassify (splitOnNl c10hunk.content) = (c10hunk.additions, c10hunk.deletions) :=
  c10_reparse_idempotent c10sample c10file (by decide) c10hunk (by decide)

/-! ## Complexity analyzer (src/analyzers/complexity.ts)

The textual metrics use JS global regexes.  Each regex here is embedded as a
deterministic matcher (the patterns in the source have no ambiguous
backtracking: character classes of adjacent starred atoms are disjoint, so
maximal munch is exact), and a scan that counts non-overlapping matches
left to right, resuming after each match, as `String.match(/…/g)` does.
Word boundaries `\b` depend on the previous character, which the scan
threads through. -/

/-- JS `\w`: ASCII letters, digits, underscore. -/
def isWordChar (c : Char) : Bool := c.isAlpha || c.isDigit || c = '_'

/-- JS `\s` on the ASCII range (code text does not use the Unicode
space classes). -/
def isJsWs (c : Char) : Bool :=
  c = ' ' || c = '\t' || c = '\n' || c = '\r' || c = '\x0b' || c = '\x0c'

/-- Whether a word boundary `\b` fails before a word character: it does
when the previous character is itself a word character. -/
def prevIsWord : Option Char → Bool
  | some c => isWordChar c
  | none => false

/-- A matcher: given the previous character and the text from the current
position, the length (always ≥ 1) of a match starting here. -/
def Matcher : Type := Option Char → Str → Option Nat

/-- Count non-overlapping matches left to right, resuming past each match,
as a JS `g`-flag regex scan does.  The fuel argument (kept equal to the
text length) makes the recursion structural; every matcher below consumes
at least one character, witnessed for the recursion by the `max`. -/
def countScanGo (m : Matcher) : Nat → Option Char → Str → Nat
  | 0, _, _ => 0
  | fuel + 1, prev, s =>
    match s with
    | [] => 0
    | c :: rest =>
      match m prev (c :: rest) with
      | some k =>
        let k1 := max k 1
        1 + countScanGo m fuel ((c :: rest).get? (k1 - 1)) ((c :: rest).drop k1)
      | none => countScanGo m fuel (some c) rest

/-- Scan entry point. -/
def countScan (m : Matcher) (prev : Option Char) (s : Str) : Nat :=
  countScanGo m s.length prev s

/-- `\bKW\s*\(`: keyword at a word boundary, optional whitespace, then
an opening parenthesis. -/
def matchKwParen (kw : Str) : Matcher := fun prev s =>
  if prevIsWord prev then none
  else match dropPre kw s with
    | none => none
    | some r =>
      let w := (r.takeWhile isJsWs).length
      match r.drop w with
      | '(' :: _ => some (kw.length + w + 1)
      | _ => none

/-- `\belse\s+if\s*\(`. -/
def matchElseIf : Matcher := fun prev s =>
  if prevIsWord prev then none
  else match dropPre (str "else") s with
    | none => none
    | some r =>
      let w1 := (r.takeWhile isJsWs).length
      if w1 = 0 then none
      else match dropPre (str "if") (r.drop w1) with
        | none => none
        | some r2 =>
          let w2 := (r2.takeWhile isJsWs).length
          match r2.drop w2 with
          | '(' :: _ => some (4 + w1 + 2 + w2 + 1)
          | _ => none

/-- `\bcase\s+`. -/
def matchCase : Matcher := fun prev s =>
  if prevIsWord prev then none
  else match dropPre (str "case") s with
    | none => none
    | some r =>
      let w := (r.takeWhile isJsWs).length
      if w = 0 then none else some (4 + w)

/-- `\?\s*[^:]`: a `?` matches when some later character lets `[^:]`
succeed — greedily all following whitespace plus a non-colon, or, by
backtracking, the whitespace run itself when it is nonempty. -/
def matchTernary : Matcher := fun _ s =>
  match s with
  | '?' :: r =>
    let w := (r.takeWhile isJsWs).length
    match r.drop w with
    | c :: _ =>
      if c = ':' then (if w = 0 then none else some (1 + w))
      else some (1 + w + 1)
    | [] => if w = 0 then none else some (1 + w)
  | _ => none

/-- A literal pattern with no boundary, e.g. `&&`, `||`, `??`, `catch`. -/
def matchLit (lit : Str) : Matcher := fun _ s =>
  match dropPre lit s with
  | some _ => some lit.length
  | none => none

/-- `calculateCyclomaticComplexity` of complexity.ts: 1 plus the match
counts of the ten decision-point patterns. -/
def calculateCyclomaticComplexity (code : Str) : Nat :=
  1 + countScan (matchKwParen (str "if")) none code
    + countScan matchElseIf none code
    + countScan (matchKwParen (str "for")) none code
    + countScan (matchKwParen (str "while")) none code
    + countScan matchCase none code
    + countScan (matchKwParen (str "catch")) none code
    + countScan matchTernary none code
    + countScan (matchLit (str "&&")) none code
    + countScan (matchLit (str "||")) none code
    + countScan (matchLit (str "??")) none code

/-- `calculateNestingDepth` of complexity.ts: running brace counter,
floored at 0 on close, reporting the maximum reached. -/
def calculateNestingDepth (code : Str) : Nat :=
  (code.foldl (fun (acc : Nat × Nat) c =>
    let (maxD, cur) := acc
    if c = '{' then (max maxD (cur + 1), cur + 1)
    else if c = '}' then (maxD, cur - 1)
    else (maxD, cur)) (0, 0)).1

/-- JS `String.prototype.trim` on the ASCII whitespace range. -/
def trimStr (s : Str) : Str :=
  ((s.dropWhile isJsWs).reverse.dropWhile isJsWs).reverse

/-- JS `a.includes(b)`: substring occurrence at any position. -/
def containsSub (p : Str) : Str → Bool
  | [] => List.isPrefixOf p []
  | c :: rest => List.isPrefixOf p (c :: rest) || containsSub p rest

/-- One line of `calculateLineCount`'s loop: skip blank lines, track the
block-comment flag, skip comment lines, count the rest. -/
def lineCountStep : Nat × Bool → Str → Nat × Bool
  | (count, inBlock), line =>
    let trimmed := trimStr line
    if trimmed = [] then (count, inBlock)
    else
      let inBlock1 := if startsWith (str "/*") trimmed then true else inBlock
      if inBlock1 then
        (count, if containsSub (str "*/") trimmed then false else inBlock1)
      else if startsWith (str "//") trimmed then (count, inBlock1)
      else (count + 1, inBlock1)

/-- `calculateLineCount` of complexity.ts. -/
def calculateLineCount (code : Str) : Nat :=
  ((splitOnNl code).foldl lineCountStep (0, false)).1

/-- Does `import` followed by a whitespace character start here? -/
def importHere (s : Str) : Bool :=
  match dropPre (str "import") s with
  | some (d :: _) => isJsWs d
  | _ => false

/-- `^import\s+` with the `m` flag: one count per line-start position
followed by `import` and whitespace.  (The greedy `\s+` of a match stops
at the first non-whitespace character, so consuming a match never skips a
following line-start candidate; a position-scan is therefore exact.) -/
def countImportsFrom : Bool → Str → Nat
  | _, [] => 0
  | atStart, c :: rest =>
    (if atStart && importHere (c :: rest) then 1 else 0) +
      countImportsFrom (c = '\n') rest

/-- `require\s*\(`. -/
def matchRequire : Matcher := fun _ s =>
  match dropPre (str "require") s with
  | none => none
  | some r =>
    let w := (r.takeWhile isJsWs).length
    match r.drop w with
    | '(' :: _ => some (7 + w + 1)
    | _ => none

/-- `calculateDependencyCount` of complexity.ts. -/
def calculateDependencyCount (code : Str) : Nat :=
  countImportsFrom true code + countScan matchRequire none code

/-- A parameter-capturing matcher: match length and the captured
parameter-list text `([^)]*)`. -/
def CapMatcher : Type := Option Char → Str → Option (Nat × Str)

/-- Collect the captures of all non-overlapping matches, left to right,
as the `pattern.exec` loops of `calculateMaxParameters` do (fuel as in
`countScanGo`). -/
def scanParamsGo (m : CapMatcher) : Nat → Option Char → Str → List Str
  | 0, _, _ => []
  | fuel + 1, prev, s =>
    match s with
    | [] => []
    | c :: rest =>
      match m prev (c :: rest) with
      | some (k, cap) =>
        let k1 := max k 1
        cap :: scanParamsGo m fuel ((c :: rest).get? (k1 - 1)) ((c :: rest).drop k1)
      | none => scanParamsGo m fuel (some c) rest

/-- Capture-scan entry point. -/
def scanParams (m : CapMatcher) (prev : Option Char) (s : Str) : List Str :=
  scanParamsGo m s.length prev s

/-- `function\s*\w*\s*\(([^)]*)\)`. -/
def matchFunctionDecl : CapMatcher := fun _ s =>
  match dropPre (str "function") s with
  | none => none
  | some r =>
    let w1 := (r.takeWhile isJsWs).length
    let r1 := r.drop w1
    let nm := (r1.takeWhile isWordChar).length
    let r2 := r1.drop nm
    let w2 := (r2.takeWhile isJsWs).length
    match r2.drop w2 with
    | '(' :: r3 =>
      let ps := r3.takeWhile (fun c => c ≠ ')')
      match r3.drop ps.length with
      | ')' :: _ => some (8 + w1 + nm + w2 + 1 + ps.length + 1, ps)
      | _ => none
    | _ => none

/-- `\(([^)]*)\)\s*=>`. -/
def matchArrow : CapMatcher := fun _ s =>
  match s with
  | '(' :: r =>
    let ps := r.takeWhile (fun c => c ≠ ')')
    match r.drop ps.length with
    | ')' :: r2 =>
      let w := (r2.takeWhile isJsWs).length
      match dropPre (str "=>") (r2.drop w) with
      | some _ => some (1 + ps.length + 1 + w + 2, ps)
      | none => none
    | _ => none
  | _ => none

/-- `\w+\s*\(([^)]*)\)\s*{`. -/
def matchMethod : CapMatcher := fun _ s =>
  let nm := (s.takeWhile isWordChar).length
  if nm = 0 then none
  else
    let r := s.drop nm
    let w1 := (r.takeWhile isJsWs).length
    match r.drop w1 with
    | '(' :: r2 =>
      let ps := r2.takeWhile (fun c => c ≠ ')')
      match r2.drop ps.length with
      | ')' :: r3 =>
        let w2 := (r3.takeWhile isJsWs).length
        match r3.drop w2 with
        | '{' :: _ => some (nm + w1 + 1 + ps.length + 1 + w2 + 1, ps)
        | _ => none
      | _ => none
    | _ => none

/-- One character of `countParameters`'s loop: bracket-depth tracking
with top-level commas as separators (`depth` may go negative, as in JS). -/
def countParamsStep : Int × Nat × Bool → Char → Int × Nat × Bool
  | (depth, count, hasContent), c =>
    if c = '<' ∨ c = '{' ∨ c = '[' ∨ c = '(' then (depth + 1, count, hasContent)
    else if c = '>' ∨ c = '}' ∨ c = ']' ∨ c = ')' then (depth - 1, count, hasContent)
    else if c = ',' ∧ depth = 0 then
      (depth, if hasContent then count + 1 else count, false)
    else if ¬ isJsWs c then (depth, count, true)
    else (depth, count, hasContent)

/-- `countParameters` of complexity.ts. -/
def countParameters (params : Str) : Nat :=
  let r := params.foldl countParamsStep (0, 0, false)
  if r.2.2 then r.2.1 + 1 else r.2.1

/-- `calculateMaxParameters` of complexity.ts: maximum parameter count
over all captures of the three function-shape patterns, ignoring captures
that are blank. -/
def calculateMaxParameters (code : Str) : Nat :=
  let caps := scanParams matchFunctionDecl none code ++
              scanParams matchArrow none code ++
              scanParams matchMethod none code
  caps.foldl (fun mx ps =>
    if trimStr ps ≠ [] then max mx (countParameters ps) else mx) 0

/-! ### Metrics record, thresholds, flags, score -/

/-- `ComplexityMetrics` of types.ts. -/
structure ComplexityMetrics where
  nestingDepth : Nat
  cyclomaticComplexity : Nat
  parameterCount : Nat
  lineCount : Nat
  dependencyCount : Nat
  deriving Repr, DecidableEq

/-- `ComplexityThresholds` of types.ts: five integer thresholds. -/
structure ComplexityThresholds where
  nestingDepth : Nat
  cyclomaticComplexity : Nat
  parameterCount : Nat
  lineCount : Nat
  dependencyCount : Nat
  deriving Repr, DecidableEq

/-- Flag severity. -/
inductive Severity where
  | warning
  | critical
  deriving Repr, DecidableEq

/-- Names of the five metrics (`keyof ComplexityMetrics`). -/
inductive MetricName where
  | nestingDepth
  | cyclomaticComplexity
  | parameterCount
  | lineCount
  | dependencyCount
  deriving Repr, DecidableEq

/-- `ComplexityFlag` of types.ts. -/
structure ComplexityFlag where
  metric : MetricName
  value : Nat
  threshold : Nat
  severity : Severity
  deriving Repr, DecidableEq

/-- `calculateMetrics` of complexity.ts. -/
def calculateMetrics (code : Str) : ComplexityMetrics :=
  { nestingDepth := calculateNestingDepth code
    cyclomaticComplexity := calculateCyclomaticComplexity code
    parameterCount := calculateMaxParameters code
    lineCount := calculateLineCount code
    dependencyCount := calculateDependencyCount code }

/-- The five threshold checks of `checkThresholds`, in source order. -/
def checksList (m : ComplexityMetrics) (t : ComplexityThresholds) :
    List (MetricName × Nat × Nat) :=
  [(.nestingDepth, m.nestingDepth, t.nestingDepth),
   (.cyclomaticComplexity, m.cyclomaticComplexity, t.cyclomaticComplexity),
   (.parameterCount, m.parameterCount, t.parameterCount),
   (.lineCount, m.lineCount, t.lineCount),
   (.dependencyCount, m.dependencyCount, t.dependencyCount)]

/-- The flag pushed for one exceeded metric:
`severity: value > threshold * 1.5 ? 'critical' : 'warning'`. -/
def mkFlag (metric : MetricName) (value threshold : Nat) : ComplexityFlag :=
  { metric, value, threshold
    severity := if (value : ℚ) > (threshold : ℚ) * 1.5 then .critical else .warning }

/-- `checkThresholds` of complexity.ts: the conditional pushes of the
source loop, as a filterMap over the checks. -/
def checkThresholds (metrics : ComplexityMetrics)
    (thresholds : ComplexityThresholds) : List ComplexityFlag :=
  (checksList metrics thresholds).filterMap
    (fun c => if c.2.1 > c.2.2 then some (mkFlag c.1 c.2.1 c.2.2) else none)

/-- `normalize` of `calculateScore`: `min(2, value / threshold)`. -/
def normalize (value threshold : ℚ) : ℚ := min 2 (value / threshold)

/-- `calculateScore` of complexity.ts over exact rationals:
average of the five normalized metrics, times 5, rounded to one decimal.
`round` is `⌊x + 1/2⌋`, as JS `Math.round`. -/
def calculateScore (m : ComplexityMetrics) (t : ComplexityThresholds) : ℚ :=
  let scores : List ℚ :=
    [normalize m.nestingDepth t.nestingDepth,
     normalize m.cyclomaticComplexity t.cyclomaticComplexity,
     normalize m.parameterCount t.parameterCount,
     normalize m.lineCount t.lineCount,
     normalize m.dependencyCount t.dependencyCount]
  let avg := scores.foldl (· + ·) 0 / (scores.length : ℚ)
  (round (avg * 5 * 10) : ℚ) / 10

/-- Decimal digits of a number, as JS number-to-string interpolation. -/
def natToStr (n : Nat) : Str := Nat.toDigits 10 n

/-- The per-flag suggestion strings of `generateSuggestions`. -/
def suggestionFor (flag : ComplexityFlag) : Str :=
  match flag.metric with
  | .nestingDepth =>
    str "Consider extracting nested logic into separate functions to reduce depth from " ++
      natToStr flag.value ++ str " to â‰¤" ++ natToStr flag.threshold
  | .cyclomaticComplexity =>
    str "High decision complexity (" ++ natToStr flag.value ++
      str " paths). Consider splitting into smaller functions or using early returns"
  | .parameterCount =>
    str "Function has " ++ natToStr flag.value ++
      str " parameters. Consider using an options object or splitting the function"
  | .lineCount =>
    natToStr flag.value ++ str " lines is hard to review at once. Consider extracting into " ++
      natToStr ((flag.value + 29) / 30) ++ str " smaller functions"
  | .dependencyCount =>
    natToStr flag.value ++
      str " imports may indicate too many responsibilities. Consider if all are needed"

/-- `generateSuggestions` of complexity.ts. -/
def generateSuggestions (flags : List ComplexityFlag) (code : Str) : List Str :=
  let base := flags.map suggestionFor
  if containsSub (str "try") code && containsSub (str "catch") code then
    let catchCount := countScan (matchLit (str "catch")) none code
    if catchCount > 2 then
      base ++ [str "Multiple try-catch blocks (" ++ natToStr catchCount ++
        str "). Consider a single error boundary or utility function"]
    else base
  else base

/-- `ComplexityAnalysis` of types.ts. -/
structure ComplexityAnalysis where
  score : ℚ
  metrics : ComplexityMetrics
  flags : List ComplexityFlag
  suggestions : List Str
  deriving Repr, DecidableEq

/-- `analyzeComplexity` of complexity.ts.  The source defaults `thresholds`
to `DEFAULT_CONFIG.complexityThresholds` (defined in types.ts, not present
in this repository snapshot); here the thresholds are an explicit
parameter. -/
def analyzeComplexity (code : Str) (thresholds : ComplexityThresholds) :
    ComplexityAnalysis :=
  let metrics := calculateMetrics code
  let flags := checkThresholds metrics thresholds
  let score := calculateScore metrics thresholds
  let suggestions := generateSuggestions flags code
  { score, metrics, flags, suggestions }

/-! ## Claim theorems about the complexity analyzer -/

/-- Modelled from the spec: the claimed cyclomatic-complexity counting rule,
in which an occurrence of `else if (` is counted exactly once overall and
not additionally by the plain `if (` rule — i.e. the plain-`if` count is
taken net of the `if (` occurrences inside `else if (` matches. -/
def cyclomaticClaimed (code : Str) : Nat :=
  1 + (countScan (matchKwParen (str "if")) none code
        - countScan matchElseIf none code)
    + countScan matchElseIf none code
    + countScan (matchKwParen (str "for")) none code
    + countScan (matchKwParen (str "while")) none code
    + countScan matchCase none code
    + countScan (matchKwParen (str "catch")) none code
    + countScan matchTernary none code
    + countScan (matchLit (str "&&")) none code
    + countScan (matchLit (str "||")) none code
    + countScan (matchLit (str "??")) none code

/-- C4 (code_bug): on `else if (a) { }` the code yields 3, because the
`if (` inside the `else if (` is matched by the plain-`if` pattern *and*
the `else if` pattern adds one more — despite the source's own comment
"else if (don't double count)".  The claimed rule yields 2. -/
theorem c4_else_if_double_counted :
    calculateCyclomaticComplexity (str "else if (a) { }") = 3 ∧
    cyclomaticClaimed (str "else if (a) { }") = 2 ∧
    calculateCyclomaticComplexity (str "else if (a) { }") ≠
      cyclomaticClaimed (str "else if (a) { }") :=
  ⟨by decide, by decide, by decide⟩

/-- Pointwise order on metric records. -/
def MetricsLE (m m' : ComplexityMetrics) : Prop :=
  m.nestingDepth ≤ m'.nestingDepth ∧
  m.cyclomaticComplexity ≤ m'.cyclomaticComplexity ∧
  m.parameterCount ≤ m'.parameterCount ∧
  m.lineCount ≤ m'.lineCount ∧
  m.dependencyCount ≤ m'.dependencyCount

/-- Sum of the five normalized metric values. -/
def sumNormalized (m : ComplexityMetrics) (t : ComplexityThresholds) : ℚ :=
  normalize m.nestingDepth t.nestingDepth +
  normalize m.cyclomaticComplexity t.cyclomaticComplexity +
  normalize m.parameterCount t.parameterCount +
  normalize m.lineCount t.lineCount +
  normalize m.dependencyCount t.dependencyCount

theorem round_mono_q {x y : ℚ} (h : x ≤ y) : round x ≤ round y := by
  rw [round_eq, round_eq]
  exact Int.floor_le_floor (by linarith)

theorem normalize_nonneg (v t : Nat) : 0 ≤ normalize (v : ℚ) (t : ℚ) := by
  unfold normalize
  have h1 : (0 : ℚ) ≤ (v : ℚ) / (t : ℚ) :=
    div_nonneg (by positivity) (by positivity)
  exact le_min (by norm_num) h1

theorem normalize_le_two (v t : ℚ) : normalize v t ≤ 2 := min_le_left 2 _

theorem normalize_mono (v v' : Nat) (t : Nat) (ht : 0 < t) (h : v ≤ v') :
    normalize (v : ℚ) (t : ℚ) ≤ normalize (v' : ℚ) (t : ℚ) := by
  unfold normalize
  have htq : (0 : ℚ) < (t : ℚ) := by exact_mod_cast ht
  exact min_le_min le_rfl ((div_le_div_iff_of_pos_right htq).mpr (by exact_mod_cast h))

/-- `calculateScore` in the spec's form: the average of the five normalized
values times 5 equals their sum, so the score is the sum rounded at one
decimal place. -/
theorem calculateScore_eq (m : ComplexityMetrics) (t : ComplexityThresholds) :
    calculateScore m t = (round (sumNormalized m t * 10) : ℚ) / 10 := by
  unfold calculateScore sumNormalized
  simp only [List.foldl_cons, List.foldl_nil, List.length_cons, List.length_nil]
  norm_num

/-- C7: with positive thresholds, the score is the spec's rounded average
formula, lies in `[0, 10]`, and is monotonically non-decreasing in each
metric with the others held fixed (stated via the pointwise order). -/
theorem c7_score_bounded_monotone (t : ComplexityThresholds)
    (ht : 0 < t.nestingDepth ∧ 0 < t.cyclomaticComplexity ∧
      0 < t.parameterCount ∧ 0 < t.lineCount ∧ 0 < t.dependencyCount) :
    (∀ m : ComplexityMetrics,
      calculateScore m t = (round (sumNormalized m t * 10) : ℚ) / 10) ∧
    (∀ m : ComplexityMetrics,
      0 ≤ calculateScore m t ∧ calculateScore m t ≤ 10) ∧
    (∀ m m' : ComplexityMetrics, MetricsLE m m' →
      calculateScore m t ≤ calculateScore m' t) := by
  refine ⟨fun m => calculateScore_eq m t, ?_, ?_⟩
  · intro m
    rw [calculateScore_eq m t]
    have hs0 : 0 ≤ sumNormalized m t := by
      unfold sumNormalized
      have h1 := normalize_nonneg m.nestingDepth t.nestingDepth
      have h2 := normalize_nonneg m.cyclomaticComplexity t.cyclomaticComplexity
      have h3 := normalize_nonneg m.parameterCount t.parameterCount
      have h4 := normalize_nonneg m.lineCount t.lineCount
      have h5 := normalize_nonneg m.dependencyCount t.dependencyCount
      linarith
    have hs10 : sumNormalized m t ≤ 10 := by
      unfold sumNormalized
      have h1 := normalize_le_two (m.nestingDepth : ℚ) (t.nestingDepth : ℚ)
      have h2 := normalize_le_two (m.cyclomaticComplexity : ℚ) (t.cyclomaticComplexity : ℚ)
      have h3 := normalize_le_two (m.parameterCount : ℚ) (t.parameterCount : ℚ)
      have h4 := normalize_le_two (m.lineCount : ℚ) (t.lineCount : ℚ)
      have h5 := normalize_le_two (m.dependencyCount : ℚ) (t.dependencyCount : ℚ)
      linarith
    constructor
    · have : (0 : ℤ) ≤ round (sumNormalized m t * 10) := by
        have := round_mono_q (show (0 : ℚ) ≤ sumNormalized m t * 10 by linarith)
        simpa using this
      have : (0 : ℚ) ≤ (round (sumNormalized m t * 10) : ℚ) := by exact_mod_cast this
      linarith
    · have h100 : round (sumNormalized m t * 10) ≤ (100 : ℤ) := by
        have := round_mono_q (show sumNormalized m t * 10 ≤ (100 : ℚ) by linarith)
        simpa using this
      have : (round (sumNormalized m t * 10) : ℚ) ≤ (100 : ℚ) := by exact_mod_cast h100
      linarith
  · intro m m' hle
    rw [calculateScore_eq m t, calculateScore_eq m' t]
    have hsum : sumNormalized m t ≤ sumNormalized m' t := by
      unfold sumNormalized
      have h1 := normalize_mono m.nestingDepth m'.nestingDepth t.nestingDepth ht.1 hle.1
      have h2 := normalize_mono m.cyclomaticComplexity m'.cyclomaticComplexity
        t.cyclomaticComplexity ht.2.1 hle.2.1
      have h3 := normalize_mono m.parameterCount m'.parameterCount
        t.parameterCount ht.2.2.1 hle.2.2.1
      have h4 := normalize_mono m.lineCount m'.lineCount t.lineCount ht.2.2.2.1 hle.2.2.2.1
      have h5 := normalize_mono m.dependencyCount m'.dependencyCount
        t.dependencyCount ht.2.2.2.2 hle.2.2.2.2
      linarith
    have := round_mono_q (show sumNormalized m t * 10 ≤ sumNormalized m' t * 10 by linarith)
    have hq : (round (sumNormalized m t * 10) : ℚ) ≤ (round (sumNormalized m' t * 10) : ℚ) := by
      exact_mod_cast this
    linarith

/-- Witness for C7 at concrete metrics and thresholds. -/
theorem c7_score_bounded_monotone_witness :
    (0 ≤ calculateScore ⟨1, 2, 3, 4, 5⟩ ⟨1, 1, 1, 1, 1⟩ ∧
      calculateScore ⟨1, 2, 3, 4, 5⟩ ⟨1, 1, 1, 1, 1⟩ ≤ 10) ∧
    calculateScore ⟨1, 2, 3, 4, 5⟩ ⟨1, 1, 1, 1, 1⟩ ≤
      calculateScore ⟨2, 2, 3, 4, 5⟩ ⟨1, 1, 1, 1, 1⟩ :=
  ⟨(c7_score_bounded_monotone ⟨1, 1, 1, 1, 1⟩ (by decide)).2.1 ⟨1, 2, 3, 4, 5⟩,
   (c7_score_bounded_monotone ⟨1, 1, 1, 1, 1⟩ (by decide)).2.2 ⟨1, 2, 3, 4, 5⟩
     ⟨2, 2, 3, 4, 5⟩ ⟨by decide, by decide, by decide, by decide, by decide⟩⟩

/-- Value of a metric by name (`metrics[metric]`). -/
def metricValue (m : ComplexityMetrics) : MetricName → Nat
  | .nestingDepth => m.nestingDepth
  | .cyclomaticComplexity => m.cyclomaticComplexity
  | .parameterCount => m.parameterCount
  | .lineCount => m.lineCount
  | .dependencyCount => m.dependencyCount

/-- Threshold of a metric by name. -/
def thresholdValue (t : ComplexityThresholds) : MetricName → Nat
  | .nestingDepth => t.nestingDepth
  | .cyclomaticComplexity => t.cyclomaticComplexity
  | .parameterCount => t.parameterCount
  | .lineCount => t.lineCount
  | .dependencyCount => t.dependencyCount

theorem mkFlag_severity (name : MetricName) (v t : Nat) :
    ((mkFlag name v t).severity = .critical ↔ (v : ℚ) > (t : ℚ) * 1.5) ∧
    ((mkFlag name v t).severity = .warning ↔ ¬ ((v : ℚ) > (t : ℚ) * 1.5)) := by
  unfold mkFlag
  by_cases h : (v : ℚ) > (t : ℚ) * 1.5 <;> simp [h]

/-- Characterization of any flag emitted by `checkThresholds`. -/
theorem c8_aux (m : ComplexityMetrics) (t : ComplexityThresholds) :
    ∀ f ∈ checkThresholds m t,
      f.value = metricValue m f.metric ∧
      f.threshold = thresholdValue t f.metric ∧
      f.value > f.threshold ∧
      (f.severity = .critical ↔ (f.value : ℚ) > (f.threshold : ℚ) * 1.5) ∧
      (f.severity = .warning ↔ ¬ ((f.value : ℚ) > (f.threshold : ℚ) * 1.5)) := by
  intro f hf
  simp only [checkThresholds, checksList, List.mem_filterMap, List.mem_cons,
    List.not_mem_nil, or_false] at hf
  obtain ⟨c, hc, heq⟩ := hf
  rcases hc with rfl | rfl | rfl | rfl | rfl <;>
  · split_ifs at heq with h
    rw [Option.some.injEq] at heq
    subst heq
    exact ⟨rfl, rfl, h, mkFlag_severity _ _ _⟩

/-- C8: a flag for a metric exists iff its value strictly exceeds its
threshold; a present flag carries the metric's value and threshold and has
severity `critical` iff `value > 1.5 × threshold`, else `warning`. -/
theorem c8_flags_iff (m : ComplexityMetrics) (t : ComplexityThresholds) :
    (∀ f ∈ checkThresholds m t,
      f.value = metricValue m f.metric ∧
      f.threshold = thresholdValue t f.metric ∧
      f.value > f.threshold ∧
      (f.severity = .critical ↔ (f.value : ℚ) > (f.threshold : ℚ) * 1.5) ∧
      (f.severity = .warning ↔ ¬ ((f.value : ℚ) > (f.threshold : ℚ) * 1.5))) ∧
    (∀ name : MetricName, metricValue m name > thresholdValue t name →
      ∃ f ∈ checkThresholds m t, f.metric = name) ∧
    (∀ name : MetricName, metricValue m name ≤ thresholdValue t name →
      ∀ f ∈ checkThresholds m t, f.metric ≠ name) := by
  refine ⟨c8_aux m t, ?_, ?_⟩
  · intro name h
    cases name with
    | nestingDepth =>
      refine ⟨mkFlag .nestingDepth m.nestingDepth t.nestingDepth,
        List.mem_filterMap.mpr ⟨(.nestingDepth, m.nestingDepth, t.nestingDepth),
          by simp [checksList], by exact if_pos h⟩, rfl⟩
    | cyclomaticComplexity =>
      refine ⟨mkFlag .cyclomaticComplexity m.cyclomaticComplexity t.cyclomaticComplexity,
        List.mem_filterMap.mpr ⟨(.cyclomaticComplexity, m.cyclomaticComplexity,
          t.cyclomaticComplexity), by simp [checksList], by exact if_pos h⟩, rfl⟩
    | parameterCount =>
      refine ⟨mkFlag .parameterCount m.parameterCount t.parameterCount,
        List.mem_filterMap.mpr ⟨(.parameterCount, m.parameterCount, t.parameterCount),
          by simp [checksList], by exact if_pos h⟩, rfl⟩
    | lineCount =>
      refine ⟨mkFlag .lineCount m.lineCount t.lineCount,
        List.mem_filterMap.mpr ⟨(.lineCount, m.lineCount, t.lineCount),
          by simp [checksList], by exact if_pos h⟩, rfl⟩
    | dependencyCount =>
      refine ⟨mkFlag .dependencyCount m.dependencyCount t.dependencyCount,
        List.mem_filterMap.mpr ⟨(.dependencyCount, m.dependencyCount, t.dependencyCount),
          by simp [checksList], by exact if_pos h⟩, rfl⟩
  · intro name h f hf hname
    have h1 := (c8_aux m t f hf).1
    have h3 := (c8_aux m t f hf).2.2.1
    rw [hname] at h1
    have h2 := (c8_aux m t f hf).2.1
    rw [hname] at h2
    rw [h1, h2] at h3
    omega

/-- Witness for C8 at a concrete metrics/thresholds pair. -/
theorem c8_flags_iff_witness :
    ∃ f ∈ checkThresholds ⟨5, 1, 1, 1, 1⟩ ⟨3, 2, 2, 2, 2⟩,
      f.metric = MetricName.nestingDepth :=
  (c8_flags_iff ⟨5, 1, 1, 1, 1⟩ ⟨3, 2, 2, 2, 2⟩).2.1 MetricName.nestingDepth (by decide)

/-! ## Orchestrator (dist/index.js: `runReview` and `analyzeHunk`)

The External Reviewer (the Claude API wrapper of api/claude.js) is a
collaborator: its two calls, `generateSummary(content, context, filename,
model)` and `detectPatterns(addedCode, filename, model)`, are network-bound
and fallible.  They are modelled as oracle functions returning `Except`;
`.error` stands for a thrown exception (e.g. a network error).  Wall-clock
`processingTime` values are not modelled and carried as 0.  The `model`
string parameter only selects the remote model and is absorbed into the
oracle. -/

/-- The summary object of `generateSummary`. -/
structure Summary where
  what : Str
  why : Str
  watch : List Str
  deriving Repr, DecidableEq

/-- `'low' | 'medium' | 'high'`. -/
inductive Likelihood where
  | low
  | medium
  | high
  deriving Repr, DecidableEq

/-- `PatternFinding` of types.ts. -/
structure PatternFinding where
  type : Str
  lines : List Int
  issue : Str
  simplerAlternative : Option Str
  deriving Repr, DecidableEq

/-- The result object of `detectPatterns`. -/
structure PatternAnalysis where
  patternsFound : List PatternFinding
  overallAiLikelihood : Likelihood
  keyQuestion : Option Str
  deriving Repr, DecidableEq

/-- `HunkAnalysis` of types.ts. -/
structure HunkAnalysis where
  hunk : DiffHunk
  summary : Option Summary
  patterns : Option PatternAnalysis
  complexity : Option ComplexityAnalysis
  processingTime : Nat
  deriving Repr, DecidableEq

/-- `FileAnalysis` of types.ts. -/
structure FileAnalysis where
  filename : Str
  hunks : List HunkAnalysis
  overallComplexity : ℚ
  deriving Repr, DecidableEq

/-- `ReviewResult` of types.ts. -/
structure ReviewResult where
  files : List FileAnalysis
  totalHunks : Nat
  totalProcessingTime : Nat
  aiCodeLikelihood : Likelihood
  deriving Repr, DecidableEq

/-- The options consumed by the analysis loop (`--no-summary`,
`--no-patterns`, `--no-complexity`, `--max-hunks`); `maxHunks` is the
parsed CLI integer, a natural number. -/
structure Options where
  summary : Bool
  patterns : Bool
  complexity : Bool
  maxHunks : Nat
  deriving Repr, DecidableEq

/-- `generateSummary` collaborator: content, context, filename. -/
def SummaryOracle : Type := Str → Str → Str → Except Unit Summary

/-- `detectPatterns` collaborator: added code, filename. -/
def PatternOracle : Type := Str → Str → Except Unit PatternAnalysis

/-- JS string truthiness of `s.trim()`. -/
def isNonBlank (s : Str) : Bool := trimStr s ≠ []

/-- `analyzeHunk` of index.js: complexity over added plus removed lines
when enabled and non-blank; summary and patterns from the External
Reviewer, each `try`/`catch`-guarded so a thrown call leaves its field
unset (`hunk.context || ''` is the identity here since `context` is
always a string). -/
def analyzeHunk (gen : SummaryOracle) (det : PatternOracle)
    (defaultThresholds : ComplexityThresholds)
    (hunk : DiffHunk) (filename : Str) (opts : Options) : HunkAnalysis :=
  let complexity :=
    if opts.complexity then
      let allContent := joinNl (hunk.additions ++ hunk.deletions)
      if isNonBlank allContent then
        some (analyzeComplexity allContent defaultThresholds)
      else none
    else none
  let summary :=
    if opts.summary then
      match gen hunk.content hunk.context filename with
      | .ok s => some s
      | .error _ => none
    else none
  let patterns :=
    if opts.patterns then
      let addedCode := joinNl hunk.additions
      if isNonBlank addedCode then
        match det addedCode filename with
        | .ok p => some p
        | .error _ => none
      else none
    else none
  { hunk, summary, patterns, complexity, processingTime := 0 }

/-- The inner hunk loop of `runReview`, over the pre-sliced hunks, with the
`processedHunks >= maxHunks` break guard. -/
def hunkLoop (gen : SummaryOracle) (det : PatternOracle)
    (th : ComplexityThresholds) (opts : Options) (filename : Str) :
    List DiffHunk → Nat → List HunkAnalysis × Nat
  | [], p => ([], p)
  | h :: rest, p =>
    if p ≥ opts.maxHunks then ([], p)
    else
      let a := analyzeHunk gen det th h filename opts
      let r := hunkLoop gen det th opts filename rest (p + 1)
      (a :: r.1, r.2)

/-- One file of `runReview`'s outer loop: analyze
`file.hunks.slice(0, maxHunks - processedHunks)` and average the computed
complexity scores (hunks without a score are in neither numerator nor
denominator; 0 with no scores at all).  `processedHunks` never exceeds
`maxHunks`, so the JS `slice` end argument is the natural-number
difference. -/
def analyzeFile (gen : SummaryOracle) (det : PatternOracle)
    (th : ComplexityThresholds) (opts : Options) (file : DiffFile) (p : Nat) :
    FileAnalysis × Nat :=
  let r := hunkLoop gen det th opts file.filename
    (file.hunks.take (opts.maxHunks - p)) p
  let complexities := (r.1.filterMap (fun h => h.complexity)).map (fun c => c.score)
  let overallComplexity : ℚ :=
    if complexities.length > 0 then
      complexities.foldl (· + ·) 0 / (complexities.length : ℚ)
    else 0
  ({ filename := file.filename, hunks := r.1, overallComplexity }, r.2)

/-- The outer file loop of `runReview`, threading the global
`processedHunks` counter. -/
def filesLoop (gen : SummaryOracle) (det : PatternOracle)
    (th : ComplexityThresholds) (opts : Options) :
    List DiffFile → Nat → List FileAnalysis × Nat
  | [], p => ([], p)
  | f :: rest, p =>
    let fa := analyzeFile gen det th opts f p
    let r := filesLoop gen det th opts rest fa.2
    (fa.1 :: r.1, r.2)

/-- `h.patterns?.patternsFound || []`. -/
def patternsFoundOf (h : HunkAnalysis) : List PatternFinding :=
  match h.patterns with
  | some p => p.patternsFound
  | none => []

/-- `allPatterns` of `runReview`: findings flat-mapped over all hunks of
all files. -/
def allPatternsOf (fas : List FileAnalysis) : List PatternFinding :=
  fas.flatMap (fun f => f.hunks.flatMap patternsFoundOf)

/-- `runReview`'s analysis phase, from the already-filtered TS/JS files.
`totalHunks` and `processedHunks` increment together from 0 in the source,
so a single counter serves as both. -/
def runReview (gen : SummaryOracle) (det : PatternOracle)
    (th : ComplexityThresholds) (opts : Options)
    (tsFiles : List DiffFile) : ReviewResult :=
  let r := filesLoop gen det th opts tsFiles 0
  let allPatterns := allPatternsOf r.1
  let aiLikelihood : Likelihood :=
    if allPatterns.length > 5 then .high
    else if allPatterns.length > 2 then .medium
    else .low
  { files := r.1, totalHunks := r.2, totalProcessingTime := 0,
    aiCodeLikelihood := aiLikelihood }

/-- The TS/JS files of a parsed diff, as `runReview` filters them. -/
def tsFilesOf (diffText : Str) : List DiffFile :=
  (parseDiff diffText).files.filter (fun f => isTypeScriptFile f.filename)

/-- The hunks of the analysis records of a result, in order. -/
def analyzedHunks (r : ReviewResult) : List DiffHunk :=
  r.files.flatMap (fun fa => fa.hunks.map (fun h => h.hunk))

/-- Total number of analysis records in a result. -/
def countAnalyses (r : ReviewResult) : Nat :=
  (r.files.map (fun fa => fa.hunks.length)).sum

/-- Total number of pattern findings across all hunks of all files. -/
def totalFindings (r : ReviewResult) : Nat := (allPatternsOf r.files).length

/-! ### Budget arithmetic of the hunk loops -/

/-- Within budget, the hunk loop analyzes every given hunk in order and
advances the counter by their number (the break guard never fires). -/
theorem hunkLoop_eq (gen : SummaryOracle) (det : PatternOracle)
    (th : ComplexityThresholds) (opts : Options) (fn : Str) :
    ∀ (hs : List DiffHunk) (p : Nat), p + hs.length ≤ opts.maxHunks →
      hunkLoop gen det th opts fn hs p =
        (hs.map (fun h => analyzeHunk gen det th h fn opts), p + hs.length) := by
  intro hs
  induction hs with
  | nil => intro p _; simp [hunkLoop]
  | cons h rest ih =>
    intro p hp
    simp only [List.length_cons] at hp
    have hlt : ¬ p ≥ opts.maxHunks := by omega
    simp only [hunkLoop, if_neg hlt, List.map_cons]
    rw [ih (p + 1) (by omega)]
    simp only [List.length_cons]
    congr 1
    omega

/-- Per-file budget arithmetic: the analyzed hunks are the slice, and the
counter advances by the slice length. -/
theorem analyzeFile_spec (gen : SummaryOracle) (det : PatternOracle)
    (th : ComplexityThresholds) (opts : Options) (f : DiffFile) (p : Nat)
    (hp : p ≤ opts.maxHunks) :
    ((analyzeFile gen det th opts f p).1.hunks.map (fun h => h.hunk) =
      f.hunks.take (opts.maxHunks - p)) ∧
    ((analyzeFile gen det th opts f p).1.hunks.length =
      min (opts.maxHunks - p) f.hunks.length) ∧
    ((analyzeFile gen det th opts f p).2 =
      p + min (opts.maxHunks - p) f.hunks.length) := by
  have hlen : (f.hunks.take (opts.maxHunks - p)).length =
      min (opts.maxHunks - p) f.hunks.length := List.length_take _ _
  have h1 : p + (f.hunks.take (opts.maxHunks - p)).length ≤ opts.maxHunks := by
    rw [hlen]; omega
  have hrw := hunkLoop_eq gen det th opts f.filename
    (f.hunks.take (opts.maxHunks - p)) p h1
  refine ⟨?_, ?_, ?_⟩
  · show (hunkLoop gen det th opts f.filename
        (f.hunks.take (opts.maxHunks - p)) p).1.map (fun h => h.hunk) = _
    rw [hrw, List.map_map]
    have hid : ((fun (h : HunkAnalysis) => h.hunk) ∘
        (fun h => analyzeHunk gen det th h f.filename opts)) = id := by
      funext h; rfl
    rw [hid, List.map_id]
  · show (hunkLoop gen det th opts f.filename
        (f.hunks.take (opts.maxHunks - p)) p).1.length = _
    rw [hrw]
    simp [hlen]
  · show (hunkLoop gen det th opts f.filename
        (f.hunks.take (opts.maxHunks - p)) p).2 = _
    rw [hrw]
    simp [hlen]

/-- Global budget arithmetic across files: the analyzed hunks are the
prefix of all hunks up to the remaining budget, and the counter advance is
capped by it. -/
theorem filesLoop_spec (gen : SummaryOracle) (det : PatternOracle)
    (th : ComplexityThresholds) (opts : Options) :
    ∀ (files : List DiffFile) (p : Nat), p ≤ opts.maxHunks →
      ((filesLoop gen det th opts files p).1.flatMap
          (fun fa => fa.hunks.map (fun h => h.hunk)) =
        (files.flatMap (fun f => f.hunks)).take (opts.maxHunks - p)) ∧
      ((filesLoop gen det th opts files p).2 =
        p + min (opts.maxHunks - p) (files.flatMap (fun f => f.hunks)).length) ∧
      (((filesLoop gen det th opts files p).1.map (fun fa => fa.hunks.length)).sum =
        min (opts.maxHunks - p) (files.flatMap (fun f => f.hunks)).length) := by
  intro files
  induction files with
  | nil =>
    intro p hp
    simp [filesLoop]
  | cons f rest ih =>
    intro p hp
    have hf := analyzeFile_spec gen det th opts f p hp
    have hp2 : (analyzeFile gen det th opts f p).2 ≤ opts.maxHunks := by
      rw [hf.2.2]; omega
    obtain ⟨ihA, ihB, ihC⟩ := ih (analyzeFile gen det th opts f p).2 hp2
    simp only [filesLoop, List.flatMap_cons, List.map_cons, List.sum_cons]
    refine ⟨?_, ?_, ?_⟩
    · rw [hf.1, ihA, hf.2.2]
      rw [List.take_append_eq_append_take]
      congr 2
      omega
    · rw [ihB, hf.2.2, List.length_append]
      omega
    · rw [hf.2.1, ihC, hf.2.2, List.length_append]
      omega

/-! ## Claim theorems about the orchestrator -/

/-- C5: for every diff and budget, the pipeline analyzes exactly the first
`min(maxHunks, total)` hunks in diff order, counted globally across all
TS/JS files; `totalHunks` equals the number of analysis records, and never
exceeds `maxHunks`. -/
theorem c5_global_hunk_budget (gen : SummaryOracle) (det : PatternOracle)
    (th : ComplexityThresholds) (opts : Options) (diffText : Str) :
    analyzedHunks (runReview gen det th opts (tsFilesOf diffText)) =
      ((tsFilesOf diffText).flatMap (fun f => f.hunks)).take opts.maxHunks ∧
    (runReview gen det th opts (tsFilesOf diffText)).totalHunks =
      min opts.maxHunks ((tsFilesOf diffText).flatMap (fun f => f.hunks)).length ∧
    countAnalyses (runReview gen det th opts (tsFilesOf diffText)) =
      (runReview gen det th opts (tsFilesOf diffText)).totalHunks ∧
    (runReview gen det th opts (tsFilesOf diffText)).totalHunks ≤ opts.maxHunks := by
  have hspec := filesLoop_spec gen det th opts (tsFilesOf diffText) 0
    (Nat.zero_le _)
  rcases hfl : filesLoop gen det th opts (tsFilesOf diffText) 0 with ⟨fas, p⟩
  rw [hfl] at hspec
  simp only [Nat.sub_zero, Nat.zero_add] at hspec
  have hrun : runReview gen det th opts (tsFilesOf diffText) =
      { files := fas, totalHunks := p, totalProcessingTime := 0,
        aiCodeLikelihood :=
          if (allPatternsOf fas).length > 5 then .high
          else if (allPatternsOf fas).length > 2 then .medium
          else .low } := by
    simp [runReview, hfl]
  rw [hrun]
  refine ⟨hspec.1, hspec.2.1, ?_, ?_⟩
  · show (fas.map (fun fa => fa.hunks.length)).sum = p
    rw [hspec.2.2, hspec.2.1]
  · show p ≤ opts.maxHunks
    rw [hspec.2.1]
    omega

/-- The bucketing of the report-wide likelihood. -/
theorem likelihood_cases (n : Nat) :
    ((if n > 5 then Likelihood.high else if n > 2 then .medium else .low) = .high ↔ 5 < n) ∧
    ((if n > 5 then Likelihood.high else if n > 2 then .medium else .low) = .medium ↔
      (2 < n ∧ n ≤ 5)) ∧
    ((if n > 5 then Likelihood.high else if n > 2 then .medium else .low) = .low ↔ n ≤ 2) := by
  by_cases h5 : n > 5
  · simp [h5]; omega
  · by_cases h2 : n > 2
    · simp [h5, h2]; omega
    · simp [h5, h2]; omega

/-- C6: `aiCodeLikelihood` is a function of the total pattern-finding count
across all hunks in all files only: `high` iff the count exceeds 5,
`medium` iff it exceeds 2 but not 5, `low` otherwise. -/
theorem c6_ai_likelihood (gen : SummaryOracle) (det : PatternOracle)
    (th : ComplexityThresholds) (opts : Options) (diffText : Str) :
    ((runReview gen det th opts (tsFilesOf diffText)).aiCodeLikelihood = .high ↔
      5 < totalFindings (runReview gen det th opts (tsFilesOf diffText))) ∧
    ((runReview gen det th opts (tsFilesOf diffText)).aiCodeLikelihood = .medium ↔
      (2 < totalFindings (runReview gen det th opts (tsFilesOf diffText)) ∧
        totalFindings (runReview gen det th opts (tsFilesOf diffText)) ≤ 5)) ∧
    ((runReview gen det th opts (tsFilesOf diffText)).aiCodeLikelihood = .low ↔
      totalFindings (runReview gen det th opts (tsFilesOf diffText)) ≤ 2) := by
  rcases hfl : filesLoop gen det th opts (tsFilesOf diffText) 0 with ⟨fas, p⟩
  have hrun : runReview gen det th opts (tsFilesOf diffText) =
      { files := fas, totalHunks := p, totalProcessingTime := 0,
        aiCodeLikelihood :=
          if (allPatternsOf fas).length > 5 then .high
          else if (allPatternsOf fas).length > 2 then .medium
          else .low } := by
    simp [runReview, hfl]
  rw [hrun]
  have : totalFindings
      { files := fas, totalHunks := p, totalProcessingTime := 0,
        aiCodeLikelihood :=
          if (allPatternsOf fas).length > 5 then Likelihood.high
          else if (allPatternsOf fas).length > 2 then .medium
          else .low } = (allPatternsOf fas).length := rfl
  rw [this]
  exact likelihood_cases (allPatternsOf fas).length

/-! ### C1: degradation when the External Reviewer throws -/

/-- C1 (amended): with all three analyzers enabled and non-blank content,
a thrown summary call leaves `summary` absent while `complexity` is still
populated; `patterns` is populated iff its own External Reviewer call
succeeds (pattern detection is a second remote call, not a static
analyzer); and the run still completes, covering this hunk and all others
whenever the budget allows. -/
theorem c1_summary_failure_degrades (gen : SummaryOracle) (det : PatternOracle)
    (th : ComplexityThresholds) (opts : Options) (hunk : DiffHunk)
    (filename : Str)
    (hs : opts.summary = true) (hp : opts.patterns = true)
    (hc : opts.complexity = true)
    (hgen : gen hunk.content hunk.context filename = .error ())
    (pat : PatternAnalysis)
    (hdet : det (joinNl hunk.additions) filename = .ok pat)
    (hblank : isNonBlank (joinNl (hunk.additions ++ hunk.deletions)) = true)
    (hblank2 : isNonBlank (joinNl hunk.additions) = true) :
    (analyzeHunk gen det th hunk filename opts).summary = none ∧
    (analyzeHunk gen det th hunk filename opts).complexity =
      some (analyzeComplexity (joinNl (hunk.additions ++ hunk.deletions)) th) ∧
    (analyzeHunk gen det th hunk filename opts).patterns = some pat ∧
    (∀ tsFiles : List DiffFile,
      (tsFiles.flatMap (fun f => f.hunks)).length ≤ opts.maxHunks →
      analyzedHunks (runReview gen det th opts tsFiles) =
        tsFiles.flatMap (fun f => f.hunks)) := by
  refine ⟨?_, ?_, ?_, ?_⟩
  · show (if opts.summary then _ else none) = none
    rw [if_pos hs, hgen]
  · show (if opts.complexity then _ else none) = _
    rw [if_pos hc, if_pos hblank]
  · show (if opts.patterns then _ else none) = _
    rw [if_pos hp, if_pos hblank2, hdet]
  · intro tsFiles hbudget
    have hspec := filesLoop_spec gen det th opts tsFiles 0 (Nat.zero_le _)
    rcases hfl : filesLoop gen det th opts tsFiles 0 with ⟨fas, p⟩
    rw [hfl] at hspec
    simp only [Nat.sub_zero] at hspec
    have hrun : (runReview gen det th opts tsFiles).files = fas := by
      simp [runReview, hfl]
    show (runReview gen det th opts tsFiles).files.flatMap _ = _
    rw [hrun, hspec.1]
    exact List.take_of_length_le hbudget

/-- Concrete hunk and collaborators for the C1 instances. -/
def c1hunk : DiffHunk :=
  { filename := str "f.ts", startLine := 1, endLine := 1,
    content := str "+const x = 1", additions := [str "const x = 1"],
    deletions := [], context := [] }

def c1file : DiffFile :=
  { filename := str "f.ts", hunks := [c1hunk], additions := 1, deletions := 0 }

/-- A summary collaborator whose call always throws. -/
def failGen : SummaryOracle := fun _ _ _ => .error ()

/-- A patterns collaborator whose call always throws (the same network
outage affects both External Reviewer calls). -/
def failDet : PatternOracle := fun _ _ => .error ()

/-- A patterns collaborator that returns an empty finding list. -/
def okDet : PatternOracle := fun _ _ => .ok ⟨[], .low, none⟩

def c1opts : Options := ⟨true, true, true, 20⟩

def c1th : ComplexityThresholds := ⟨3, 10, 4, 50, 10⟩

/-- C1 counterexample: all three analyzers enabled, non-blank added and
removed content, and the External Reviewer throwing (a network error hits
both of its calls) — the `summary` field is absent and `complexity` is
populated, but `patterns` is *not* populated, contradicting the claim. -/
theorem c1_counterexample :
    c1opts.summary = true ∧ c1opts.patterns = true ∧ c1opts.complexity = true ∧
    isNonBlank (joinNl (c1hunk.additions ++ c1hunk.deletions)) = true ∧
    (analyzeHunk failGen failDet c1th c1hunk (str "f.ts") c1opts).summary = none ∧
    (analyzeHunk failGen failDet c1th c1hunk (str "f.ts") c1opts).complexity.isSome
      = true ∧
    (analyzeHunk failGen failDet c1th c1hunk (str "f.ts") c1opts).patterns = none :=
  ⟨rfl, rfl, rfl, by decide, by decide, by decide, by decide⟩

/-- Witness for C1 (amended) at a concrete hunk: summary call throws,
patterns call succeeds. -/
theorem c1_summary_failure_degrades_witness :
    (analyzeHunk failGen okDet c1th c1hunk (str "f.ts") c1opts).summary = none ∧
    (analyzeHunk failGen okDet c1th c1hunk (str "f.ts") c1opts).patterns =
      some ⟨[], .low, none⟩ ∧
    analyzedHunks (runReview failGen okDet c1th c1opts [c1file]) = [c1hunk] :=
  have h := c1_summary_failure_degrades failGen okDet c1th c1opts c1hunk
    (str "f.ts") rfl rfl rfl rfl ⟨[], .low, none⟩ rfl (by decide) (by decide)
  ⟨h.1, h.2.2.1, (h.2.2.2 [c1file] (by decide)).trans (by decide)⟩

end AiPrHelper
